import Mathlib

/-!
Verification development for the YLSE repository.

The repository has two Python source files:
  * `tse.py` — an envelope codec converting between raw bytes and a
    base64-over-gzip text envelope, in whole-buffer and streaming modes;
  * `youtubers_life_save_editor.py` — a tabular save-data serializer
    (`parse_save_data` / `save_as_yls`) over the envelope's plaintext.

Bytes are modelled as `Nat` (with explicit `< 256` bounds where relevant),
byte strings and ASCII text as `List Nat` of character codes, and the
serializer's Python strings as `List Char`.

The Python standard-library routines the source calls (`base64`, `binascii`,
`gzip`, `zlib`) are not part of the repository; they are modelled here.
The base64 layer follows CPython's `binascii.a2b_base64` in its default
non-strict mode (invalid characters are discarded, padding errors raised)
and the standard `b2a_base64` grouping.  The gzip/deflate layer is modelled
as single-member gzip streams whose deflate payload uses stored
(uncompressed) blocks; the compressor-side headers reproduce the
distinguishing bytes the two Python paths write (GzipFile: XFL 2, OS 0xff;
zlib gzip wrapper: XFL 0, OS 3).
-/

deriving instance DecidableEq for Except

set_option synthInstance.maxSize 1024

namespace YLSE

/-! ## Small list and byte utilities -/

/-- Little-endian two-byte encoding of a value below 2^16. -/
def le16 (n : Nat) : List Nat := [n % 256, n / 256 % 256]

/-- Little-endian four-byte encoding of a value below 2^32. -/
def le32 (n : Nat) : List Nat :=
  [n % 256, n / 256 % 256, n / 65536 % 256, n / 16777216 % 256]

/-- Whitespace character codes for Python str.strip(): space, \t, \n, \r, \v, \f. -/
def isWsCode (c : Nat) : Bool :=
  c = 32 || c = 9 || c = 10 || c = 13 || c = 11 || c = 12

/-- Python str.strip of an ASCII code list: drop leading and trailing whitespace. -/
def pyStrip (s : List Nat) : List Nat :=
  ((s.dropWhile isWsCode).reverse.dropWhile isWsCode).reverse

/-! ## CRC32 (the checksum in a gzip member trailer) -/

/-- One bit step of the reflected CRC-32 computation. -/
def crcStep (c : Nat) : Nat :=
  if c % 2 = 1 then Nat.xor (c / 2) 0xEDB88320 else c / 2

/-- Eight bit steps (one input byte) of CRC-32. -/
def crcByte (c b : Nat) : Nat :=
  crcStep (crcStep (crcStep (crcStep (crcStep (crcStep (crcStep (crcStep
    (Nat.xor c (b % 256)))))))))

/-- CRC-32 of a byte list (gzip polynomial, reflected, init and final 0xFFFFFFFF). -/
def crc32 (data : List Nat) : Nat :=
  Nat.xor (data.foldl crcByte 0xFFFFFFFF) 0xFFFFFFFF

/-! ## Base64 -/

/-- Character code of the standard base64 alphabet entry for a sextet. -/
def b64chr (n : Nat) : Nat :=
  if n < 26 then 65 + n
  else if n < 52 then 71 + n
  else if n < 62 then n - 4
  else if n = 62 then 43 else 47

/-- Decoding table of the standard base64 alphabet: sextet value of a
character code, `none` for characters outside the alphabet. -/
def b64Table (c : Nat) : Option Nat :=
  if 65 ≤ c ∧ c ≤ 90 then some (c - 65)
  else if 97 ≤ c ∧ c ≤ 122 then some (c - 71)
  else if 48 ≤ c ∧ c ≤ 57 then some (c + 4)
  else if c = 43 then some 62
  else if c = 47 then some 63
  else none

/-- base64.b64encode: encode bytes three at a time into four alphabet
characters, padding the final partial group with `=` (code 61). -/
def b64encode : List Nat → List Nat
  | b0 :: b1 :: b2 :: rest =>
      b64chr (b0 / 4) :: b64chr (b0 % 4 * 16 + b1 / 16) ::
      b64chr (b1 % 16 * 4 + b2 / 64) :: b64chr (b2 % 64) :: b64encode rest
  | [b0, b1] =>
      [b64chr (b0 / 4), b64chr (b0 % 4 * 16 + b1 / 16), b64chr (b1 % 16 * 4), 61]
  | [b0] => [b64chr (b0 / 4), b64chr (b0 % 4 * 16), 61, 61]
  | [] => []

/-- Modelled from the spec: state machine of CPython binascii.a2b_base64 in
non-strict mode (the mode base64.b64decode uses).  Characters outside the
alphabet are discarded; `=` is counted as padding only once two data
characters of the current quad have arrived, and a completed quad of data
plus padding ends decoding; at end of input a quad position of 1 is a
length error and 2 or 3 an incorrect-padding error. -/
def a2bAux : List Nat → Nat → Nat → Nat → List Nat → Except String (List Nat)
  | [], qp, _, _, acc =>
      if qp = 0 then .ok acc
      else if qp = 1 then .error "invalid length" else .error "incorrect padding"
  | c :: rest, qp, leftc, pads, acc =>
      if c = 61 then
        if 2 ≤ qp then
          if 4 ≤ qp + (pads + 1) then .ok acc
          else a2bAux rest qp leftc (pads + 1) acc
        else a2bAux rest qp leftc pads acc
      else
        match b64Table c with
        | none => a2bAux rest qp leftc pads acc
        | some v =>
          match qp with
          | 0 => a2bAux rest 1 v 0 acc
          | 1 => a2bAux rest 2 (v % 16) 0 (acc ++ [leftc * 4 + v / 16])
          | 2 => a2bAux rest 3 (v % 4) 0 (acc ++ [leftc * 16 + v / 4])
          | _ => a2bAux rest 0 0 0 (acc ++ [leftc * 64 + v])

/-- base64.b64decode (default validate=False), i.e. binascii.a2b_base64. -/
def pyB64Decode (s : List Nat) : Except String (List Nat) :=
  a2bAux s 0 0 0 []

/-! ## Gzip member model

Modelled from the spec: the gzip/zlib standard-library layer.  A member is
a 10-byte header, a deflate stream, and a CRC-32 / input-size trailer.  The
deflate payload is modelled with stored (uncompressed) blocks: one byte
carrying BFINAL and BTYPE, LEN and its complement NLEN little-endian, then
LEN raw bytes.  The decompressor accepts any XFL/OS header bytes and any
mtime, as the real readers do. -/

/-- Header bytes gzip.GzipFile writes for an unnamed binary fileobj:
magic, deflate, no flags, mtime (modelled 0; the real file stamps the
current time), XFL 2 (compresslevel 9 is the GzipFile default), OS 0xff. -/
def gzHeaderWhole : List Nat := [31, 139, 8, 0, 0, 0, 0, 0, 2, 255]

/-- Header bytes zlib's gzip wrapper (wbits = 16 + MAX_WBITS) writes:
magic, deflate, no flags, mtime 0, XFL 0 (default level), OS 3. -/
def gzHeaderStream : List Nat := [31, 139, 8, 0, 0, 0, 0, 0, 0, 3]

/-- Deflate stored blocks covering `x`, each of at most 65535 bytes, the
last one marked final (BFINAL = 1). -/
def storedBlocks (x : List Nat) : List Nat :=
  if h : x.length ≤ 65535 then
    1 :: x.length % 256 :: x.length / 256 ::
      (65535 - x.length) % 256 :: (65535 - x.length) / 256 :: x
  else
    0 :: 255 :: 255 :: 0 :: 0 :: (x.take 65535 ++ storedBlocks (x.drop 65535))
termination_by x.length
decreasing_by
  simp only [not_le] at h
  simpa using Nat.sub_lt (by omega) (by omega : 0 < 65535)

/-- Deflate stored blocks covering `x`, none of them final (the shape an
incremental compressor emits for one fed chunk). -/
def nfBlocks (x : List Nat) : List Nat :=
  if x = [] then []
  else if h : x.length ≤ 65535 then
    0 :: x.length % 256 :: x.length / 256 ::
      (65535 - x.length) % 256 :: (65535 - x.length) / 256 :: x
  else
    0 :: 255 :: 255 :: 0 :: 0 :: (x.take 65535 ++ nfBlocks (x.drop 65535))
termination_by x.length
decreasing_by
  simp only [not_le] at h
  simpa using Nat.sub_lt (by omega) (by omega : 0 < 65535)

/-- The final empty stored block an incremental deflate compressor emits
when flushed: BFINAL = 1, LEN = 0, NLEN = 0xffff. -/
def finalBlock : List Nat := [1, 0, 0, 255, 255]

/-- Parse a sequence of stored deflate blocks up to and including the final
one; returns the concatenated data and the remaining bytes (the trailer). -/
def parseBlocks (bs : List Nat) : Option (List Nat × List Nat) :=
  match bs with
  | f :: l0 :: l1 :: n0 :: n1 :: rest =>
    let len := l0 + 256 * l1
    if n0 + 256 * n1 = 65535 - len ∧ len ≤ rest.length then
      if f = 1 then some (rest.take len, rest.drop len)
      else if f = 0 then
        (parseBlocks (rest.drop len)).map fun p => (rest.take len ++ p.1, p.2)
      else none
    else none
  | _ => none
termination_by bs.length
decreasing_by
  simp only [List.length_cons, List.length_drop]
  omega

/-- Gzip trailer for payload `x`: CRC-32 then input length, little-endian. -/
def gzTrailer (x : List Nat) : List Nat :=
  le32 (crc32 x) ++ le32 (x.length % 4294967296)

/-- Modelled from the spec: whole-buffer gzip compression of `x` into a
single member (the bytes a gzip.GzipFile write produces, with the deflate
payload in stored-block form). -/
def gzipCompress (x : List Nat) : List Nat :=
  gzHeaderWhole ++ storedBlocks x ++ gzTrailer x

/-- Modelled from the spec: decompress a single gzip member.  Checks magic,
method and (modelling only the flagless members the encoders emit) zero
flags, skips mtime/XFL/OS, parses the stored blocks, and verifies the
CRC-32 and length trailer; bytes after the trailer are ignored. -/
def gzipDecompress (bs : List Nat) : Except String (List Nat) :=
  if bs.take 4 = [31, 139, 8, 0] ∧ 10 ≤ bs.length then
    match parseBlocks (bs.drop 10) with
    | none => .error "corrupt deflate data"
    | some (data, tail) =>
      match tail with
      | c0 :: c1 :: c2 :: c3 :: i0 :: i1 :: i2 :: i3 :: _ =>
        if [c0, c1, c2, c3] = le32 (crc32 data) ∧
            [i0, i1, i2, i3] = le32 (data.length % 4294967296) then .ok data
        else .error "bad CRC or length"
      | _ => .error "truncated trailer"
  else .error "not a gzipped file"

/-! ## tse.py — whole-buffer codec -/

/-- Error taxonomy of tse.py's decode: a ValueError tagged with the stage
that failed (base64 decode vs gzip decompress). -/
inductive TseErr where
  | base64 (msg : String)
  | gzip (msg : String)
deriving DecidableEq

/-- tse.py decode_base64_gzip: strip the input text, base64-decode it
(wrapping failures as the base64-stage error), then gzip-decompress the
result (wrapping failures as the gzip-stage error). -/
def decode_base64_gzip (data : List Nat) : Except TseErr (List Nat) :=
  ((pyB64Decode (pyStrip data)).mapError TseErr.base64).bind
    fun decoded => (gzipDecompress decoded).mapError TseErr.gzip

/-- tse.py _main --encode (non-streaming path, lines 195-200): gzip-compress
the whole input with gzip.GzipFile, then base64-encode the compressed bytes. -/
def encode_base64_gzip (x : List Nat) : List Nat :=
  b64encode (gzipCompress x)

/-! ## tse.py — streaming decode -/

/-- Output a prefix of the member payload that is already determined by a
byte prefix of its deflate stream: the data of the complete stored blocks
present, stopping at the final block. -/
def availBlocks (bs : List Nat) : List Nat :=
  match bs with
  | f :: l0 :: l1 :: n0 :: n1 :: rest =>
    let len := l0 + 256 * l1
    if n0 + 256 * n1 = 65535 - len ∧ len ≤ rest.length then
      if f = 1 then rest.take len
      else if f = 0 then rest.take len ++ availBlocks (rest.drop len)
      else []
    else []
  | _ => []
termination_by bs.length
decreasing_by
  simp only [List.length_cons, List.length_drop]
  omega

/-- Payload bytes determined by a byte prefix of a gzip member: nothing
until the 10-byte header is complete, then the available stored-block data. -/
def availOut (bs : List Nat) : List Nat :=
  if bs.length < 10 then []
  else if bs.take 4 = [31, 139, 8, 0] then availBlocks (bs.drop 10)
  else []

/-- Modelled from the spec: state of zlib.decompressobj(16 + MAX_WBITS),
an incremental gzip-wrapped inflater.  `received` is every compressed byte
fed so far and `emitted` the output already handed back. -/
structure DecompSt where
  received : List Nat
  emitted : List Nat

/-- Modelled from the spec: decompressobj.decompress — feed bytes, get back
the newly determined output. -/
def DecompSt.feed (st : DecompSt) (bs : List Nat) : DecompSt × List Nat :=
  let r := st.received ++ bs
  let new := (availOut r).drop st.emitted.length
  (⟨r, st.emitted ++ new⟩, new)

/-- Modelled from the spec: decompressobj.flush — any remaining output. -/
def DecompSt.flush (st : DecompSt) : List Nat :=
  (availOut st.received).drop st.emitted.length

/-- The read/decode loop of tse.py stream_decode_b64_gzip (lines 61-90):
`remaining` is the unread part of the base64 text, `pending` the carried
partial base64 quad, `out` everything written so far.  Each iteration reads
`c` characters, base64-decodes the largest 4-aligned prefix of the pending
buffer, and feeds the bytes to the decompressor; at end of input any
leftover is decoded and the decompressor flushed. -/
def streamDecodeLoop (c : Nat) (remaining pending : List Nat) (st : DecompSt)
    (out : List Nat) : Except TseErr (List Nat) :=
  if h : c = 0 ∨ remaining.isEmpty then
    if pending.isEmpty then .ok (out ++ st.flush)
    else
      match pyB64Decode pending with
      | .error e => .error (.base64 e)
      | .ok decoded =>
        let (st1, o) := st.feed decoded
        .ok (out ++ o ++ st1.flush)
  else
    let pending1 := pending ++ remaining.take c
    let n := pending1.length / 4 * 4
    if n = 0 then streamDecodeLoop c (remaining.drop c) pending1 st out
    else
      match pyB64Decode (pending1.take n) with
      | .error e => .error (.base64 e)
      | .ok decoded =>
        let (st1, o) := st.feed decoded
        streamDecodeLoop c (remaining.drop c) (pending1.drop n) st1 (out ++ o)
termination_by remaining.length
decreasing_by
  all_goals
    simp only [not_or, List.isEmpty_iff] at h
    have hc : 0 < c := Nat.pos_of_ne_zero h.1
    have hx : 0 < remaining.length := List.length_pos.mpr h.2
    simpa using Nat.sub_lt hx hc

/-- tse.py stream_decode_b64_gzip driven with reads of size `c` over `text`;
the returned list is the concatenation of all bytes written to the output. -/
def stream_decode_b64_gzip (text : List Nat) (c : Nat) : Except TseErr (List Nat) :=
  streamDecodeLoop c text [] ⟨[], []⟩ []

/-! ## tse.py — streaming encode -/

/-- Modelled from the spec: state of zlib.compressobj(wbits = 16 + MAX_WBITS),
an incremental gzip-wrapped deflater.  `started` records whether the gzip
header has been emitted; `fed` is every input byte so far (the real object
keeps a running CRC and length, which the trailer needs). -/
structure CompSt where
  started : Bool
  fed : List Nat

/-- Modelled from the spec: compressobj.compress — the header on first
output, then the chunk as non-final stored blocks. -/
def CompSt.compress (st : CompSt) (chunk : List Nat) : CompSt × List Nat :=
  if chunk.isEmpty then (st, [])
  else (⟨true, st.fed ++ chunk⟩,
        (if st.started then [] else gzHeaderStream) ++ nfBlocks chunk)

/-- Modelled from the spec: compressobj.flush — the header if nothing was
emitted yet, the final empty stored block, and the CRC/length trailer. -/
def CompSt.flushC (st : CompSt) : List Nat :=
  (if st.started then [] else gzHeaderStream) ++ finalBlock ++ gzTrailer st.fed

/-- The read/compress/encode loop of tse.py stream_gzip_base64 (lines
103-121): each iteration reads `c` bytes, feeds them to the compressor,
appends compressor output to `buf`, and base64-encodes the largest
3-aligned prefix of `buf` (so no padding appears mid-stream); at end of
input the compressor is flushed and the whole remaining buffer encoded. -/
def streamEncodeLoop (c : Nat) (remaining : List Nat) (st : CompSt)
    (buf out : List Nat) : List Nat :=
  if h : c = 0 ∨ remaining.isEmpty then
    let buf1 := buf ++ st.flushC
    if buf1.isEmpty then out else out ++ b64encode buf1
  else
    let (st1, compressed) := st.compress (remaining.take c)
    if compressed.isEmpty then streamEncodeLoop c (remaining.drop c) st1 buf out
    else
      let buf1 := buf ++ compressed
      let n := buf1.length / 3 * 3
      if n = 0 then streamEncodeLoop c (remaining.drop c) st1 buf1 out
      else streamEncodeLoop c (remaining.drop c) st1 (buf1.drop n)
        (out ++ b64encode (buf1.take n))
termination_by remaining.length
decreasing_by
  all_goals
    simp only [not_or, List.isEmpty_iff] at h
    have hc : 0 < c := Nat.pos_of_ne_zero h.1
    have hx : 0 < remaining.length := List.length_pos.mpr h.2
    simpa using Nat.sub_lt hx hc

/-- tse.py stream_gzip_base64 driven with reads of size `c` over input `x`;
the returned list is the concatenation of all text written to the output. -/
def stream_gzip_base64 (x : List Nat) (c : Nat) : List Nat :=
  streamEncodeLoop c x ⟨false, []⟩ [] []

/-! ## Table serializer — data model

youtubers_life_save_editor.py keeps the parsed save as a dict
table name -> list of rows, each row a dict column name -> cell, where a
cell is a Python int, float or str produced by per-cell type inference.
Python dicts preserve insertion order, and assigning to an existing key
keeps its position; rows and the two dicts are modelled as association
lists with exactly that update rule.  Python floats are modelled as
rationals carrying the exact value of the decimal literal. -/

/-- One typed scalar cell: Python int, float or str. -/
inductive Cell where
  | int (n : Int)
  | float (q : ℚ)
  | text (s : List Char)
deriving DecidableEq

/-- A row: insertion-ordered mapping column name -> cell. -/
abbrev Row := List (List Char × Cell)

/-- Python dict assignment d[k] = v: overwrite in place if the key exists,
otherwise append. -/
def dictInsert (l : List ((List Char) × α)) (k : List Char) (v : α) :
    List ((List Char) × α) :=
  match l with
  | [] => [(k, v)]
  | (k0, v0) :: rest =>
    if k0 = k then (k0, v) :: rest else (k0, v0) :: dictInsert rest k v

/-- Python dict lookup d.get(k). -/
def dictGet (l : List ((List Char) × α)) (k : List Char) : Option α :=
  match l with
  | [] => none
  | (k0, v0) :: rest => if k0 = k then some v0 else dictGet rest k

/-! ## Character-level helpers for the serializer -/

/-- ASCII model of the str.isspace characters str.strip removes.  Python
also strips further Unicode whitespace (U+00A0, U+2000-U+200A, U+0085, …)
and the ASCII separators U+001C-U+001F; this model is exact precisely on
text free of those characters (see tameChar below). -/
def isWsChar (c : Char) : Bool :=
  c = ' ' || c = '\t' || c = '\n' || c = '\x0d' || c = '\x0b' || c = '\x0c'

/-- ASCII model of Python str.strip() on a character list; exact on tame
text (tameChar), an under-approximation of the stripping elsewhere. -/
def pyStripChars (s : List Char) : List Char :=
  ((s.dropWhile isWsChar).reverse.dropWhile isWsChar).reverse

/-- ASCII digit test.  Python str.isdigit also accepts non-ASCII Unicode
decimal digits (and int() converts them); on ASCII text the two coincide. -/
def isDig (c : Char) : Bool := '0' ≤ c && c ≤ '9'

/-- ASCII model of Python str.isdigit: non-empty and all ASCII digits;
exact on ASCII text, narrower on Unicode digit characters. -/
def pyIsdigit (s : List Char) : Bool := !s.isEmpty && s.all isDig

/-- Python str.split(sep) for a one-character separator: splitting the
empty string yields one empty field. -/
def splitOn1 (sep : Char) : List Char → List (List Char)
  | [] => [[]]
  | c :: rest =>
    let r := splitOn1 sep rest
    if c = sep then [] :: r
    else
      match r with
      | [] => [[c]]
      | p :: ps => (c :: p) :: ps

/-- Numeric value of a digit list. -/
def digitsVal (s : List Char) : Nat :=
  s.foldl (fun a c => a * 10 + (c.toNat - 48)) 0

/-- Modelled from the spec: Python float(s) on the strings reachable under
the caller's guard (characters limited to digits, '.' and '-'; no
exponents, underscores or whitespace arise there): an optional leading
minus, an integer part, an optional point and fraction, with at least one
digit in total; the value is the exact decimal rational.  This is the
unsigned core: integer part, optional point and fraction. -/
def pyFloatCore (t : List Char) : Option ℚ :=
  let ip := t.takeWhile isDig
  let rest := t.dropWhile isDig
  if rest.isEmpty then
    if ip.isEmpty then none else some (digitsVal ip : ℚ)
  else if rest.head? = some '.' then
    let fp := rest.tail
    if fp.all isDig ∧ ¬(ip.isEmpty ∧ fp.isEmpty) then
      some ((digitsVal ip : ℚ) + (digitsVal fp : ℚ) / (10 : ℚ) ^ fp.length)
    else none
  else none

/-- Modelled from the spec: Python float(s) on the strings reachable under
the caller's guard (characters limited to digits, '.' and '-'; no
exponents, underscores or whitespace arise there): an optional leading
minus, an integer part, an optional point and fraction, with at least one
digit in total; the value is the exact decimal rational. -/
def pyFloat (s : List Char) : Option ℚ :=
  if s.head? = some '-' then (pyFloatCore s.tail).map (fun q => -q)
  else pyFloatCore s

/-- Modelled from the spec: Python int(s) on the strings reachable under
the caller's guard (all digits, or '-' followed by all digits). -/
def pyInt (s : List Char) : Option Int :=
  if pyIsdigit s then some (digitsVal s : Int)
  else if s.head? = some '-' ∧ pyIsdigit s.tail then
    some (-(digitsVal s.tail : Int))
  else none

/-- Per-cell type inference of parse_save_data (lines 601-610): if the text
contains a '.' and stripping every '.' and '-' leaves digits, try float();
else if it is digits or '-' plus digits, int(); otherwise keep the text.
Conversion failures are swallowed by the bare except and keep the text.
The digit test is the ASCII model above, so this transcription is exact on
ASCII text; on Unicode digit strings (such as Arabic-Indic digits, which
the real str.isdigit/int accept) it returns Text where the source returns
a number. -/
def inferCell (s : List Char) : Cell :=
  if s.contains '.' ∧ pyIsdigit ((s.filter (· ≠ '.')).filter (· ≠ '-')) then
    match pyFloat s with
    | some q => .float q
    | none => .text s
  else if pyIsdigit s ∨ (s.head? = some '-' ∧ pyIsdigit s.tail) then
    match pyInt s with
    | some n => .int n
    | none => .text s
  else .text s

/-! ## Table serializer — parse_save_data -/

/-- Parser state threaded through the line loop of parse_save_data:
the accumulated tables and captured header orders, plus the current table
name and its header list. -/
structure PSt where
  tables : List (List Char × List Row)
  headers : List (List Char × List (List Char))
  cur : Option (List Char)
  curHs : List (List Char)
deriving DecidableEq

/-- Initial parser state. -/
def PSt.init : PSt := ⟨[], [], none, []⟩

/-- Marker test: the stripped line starts with the three characters ###. -/
def isMarker (l : List Char) : Bool :=
  l.take 3 = ['#', '#', '#']

/-- Append a row to tables[name]; a missing key would be a Python KeyError,
modelled as an error result. -/
def appendRow (tables : List (List Char × List Row)) (name : List Char)
    (row : Row) : Except String (List (List Char × List Row)) :=
  match tables with
  | [] => .error "KeyError"
  | (k, rows) :: rest =>
    if k = name then .ok ((k, rows ++ [row]) :: rest)
    else (appendRow rest name row).map fun r => (k, rows) :: r

/-- Build one row record (lines 594-610): pad the fields with empty strings
up to the header count, then assign header -> inferred cell in order. -/
def buildRow (hs : List (List Char)) (parts : List (List Char)) : Row :=
  let padded := parts ++ List.replicate (hs.length - parts.length) []
  (hs.zip padded).foldl (fun acc hp => dictInsert acc hp.1 (inferCell hp.2)) []

/-- Process one line of parse_save_data (lines 567-612): strip; skip
blanks; a ### marker opens a (reset) table and clears the header state;
before any marker everything is skipped; the first multi-field line of a
section is captured as the header order; later lines with at most as many
fields as headers become rows; longer lines are skipped. -/
def parseLine (st : PSt) (rawLine : List Char) : Except String PSt :=
  let line := pyStripChars rawLine
  if line.isEmpty then .ok st
  else if isMarker line then
    let name := line.drop 3
    .ok ⟨dictInsert st.tables name [], st.headers, some name, []⟩
  else
    match st.cur with
    | none => .ok st
    | some name =>
      let parts := splitOn1 '\t' line
      if st.curHs.isEmpty ∧ 1 < parts.length then
        .ok ⟨st.tables, dictInsert st.headers name parts, st.cur, parts⟩
      else if ¬st.curHs.isEmpty ∧ parts.length ≤ st.curHs.length then
        (appendRow st.tables name (buildRow st.curHs parts)).map
          fun t => ⟨t, st.headers, st.cur, st.curHs⟩
      else .ok st

/-- parse_save_data (lines 558-616): split the text on newlines and fold
the line processor; returns the tables and the captured header orders. -/
def parse_save_data (data : List Char) :
    Except String (List (List Char × List Row) × List (List Char × List (List Char))) :=
  ((splitOn1 '\n' data).foldlM parseLine PSt.init).map fun st =>
    (st.tables, st.headers)

/-! ## Table serializer — save_as_yls (format) -/

/-- Python str(int); Nat.toDigits renders the decimal digits. -/
def intStr (n : Int) : List Char :=
  if n < 0 then '-' :: Nat.toDigits 10 n.natAbs else Nat.toDigits 10 n.natAbs

/-- Modelled from the spec: Python str(float) for floats whose shortest
repr is positional: the exact decimal digits with at least one fractional
digit ("3.0", "10.05", "-0.5").  Values outside CPython's positional range
(nonzero magnitude below 1e-4 or at least 1e16) print in scientific
notation, abbreviated here to a placeholder containing 'e' (such text never
re-parses as numeric, as in the real program); non-decimal denominators
cannot arise from parsed literals and get the same placeholder. -/
def floatStr (q : ℚ) : List Char :=
  let sign : List Char := if q < 0 then ['-'] else []
  let a : ℚ := |q|
  if q ≠ 0 ∧ (a < 1 / 10000 ∨ (10 : ℚ) ^ (16 : ℕ) ≤ a) then sign ++ ['e']
  else
    match (List.range 40).find? (fun k => 10 ^ k % a.den = 0) with
    | none => sign ++ ['e']
    | some k =>
      let scaled := a.num.natAbs * 10 ^ k / a.den
      let ipart := Nat.toDigits 10 (scaled / 10 ^ k)
      let fdigs := Nat.toDigits 10 (scaled % 10 ^ k)
      if k = 0 then sign ++ ipart ++ ['.', '0']
      else sign ++ ipart ++ '.' ::
        (List.replicate (k - fdigs.length) '0' ++ fdigs)

/-- Python str() of a cell (str of an int, float or str). -/
def renderCell : Cell → List Char
  | .int n => intStr n
  | .float q => floatStr q
  | .text s => s

/-- Join fields with tabs ('\t'.join). -/
def joinTab : List (List Char) → List Char
  | [] => []
  | [p] => p
  | p :: rest => p ++ '\t' :: joinTab rest

/-- One rendered field of save_as_yls (line 1069): str(row.get(col, '')). -/
def renderField (row : Row) (h : List Char) : List Char :=
  renderCell ((dictGet row h).getD (.text []))

/-- One rendered data line of save_as_yls (lines 1068-1070): for each
column of the header order, str(row.get(col, '')). -/
def renderRow (hs : List (List Char)) (row : Row) : List Char :=
  joinTab (hs.map (renderField row))

/-- save_as_yls text generation (lines 1056-1071): for each table, the
###name marker line; if the table is non-empty, a header line in the
captured order (falling back to the first row's keys) and one line per
row; then a blank line.  The encode half (gzip then base64) is the same
operation as encode_base64_gzip and not part of the round-trip claims. -/
def save_as_yls_text (tables : List (List Char × List Row))
    (headers : List (List Char × List (List Char))) : List Char :=
  (tables.map fun nt =>
    ('#' :: '#' :: '#' :: nt.1) ++ '\n' ::
    ((match nt.2 with
      | [] => []
      | r0 :: _ =>
        let hs := (dictGet headers nt.1).getD (r0.map Prod.fst)
        (joinTab hs ++ ['\n']) ++
          (nt.2.map fun row => renderRow hs row ++ ['\n']).flatten) ++
      ['\n'])).flatten

/-! ## Claim C5 — the spec's statement of type inference

The following definitions transcribe the spec's three-rule priority order
verbatim, to be compared with `inferCell`, which transcribes the source. -/

/-- Strip at most one leading minus sign. -/
def dropLeadMinus (s : List Char) : List Char :=
  if s.head? = some '-' then s.tail else s

/-- Spec rule (1): the text contains a decimal point and, after stripping
at most one leading minus and the decimal point, all remaining characters
are digits (of which there is at least one). -/
def specFloatPat (s : List Char) : Bool :=
  s.contains '.' && ((dropLeadMinus s).count '.' == 1) &&
    (let u := (dropLeadMinus s).filter (· ≠ '.')
     !u.isEmpty && u.all isDig)

/-- The decimal value named by a float-pattern text. -/
def specFloatVal (s : List Char) : ℚ :=
  let t := dropLeadMinus s
  let ip := t.takeWhile (· ≠ '.')
  let fp := (t.dropWhile (· ≠ '.')).tail
  let mag : ℚ := (digitsVal ip : ℚ) + (digitsVal fp : ℚ) / (10 : ℚ) ^ fp.length
  if s.head? = some '-' then -mag else mag

/-- Spec rule (2): all characters are digits, or exactly one leading minus
followed by all digits. -/
def specIntPat (s : List Char) : Bool :=
  pyIsdigit s || (s.head? = some '-' && pyIsdigit s.tail)

/-- The integer value named by an integer-pattern text. -/
def specIntVal (s : List Char) : Int :=
  if s.head? = some '-' then -(digitsVal s.tail : Int) else (digitsVal s : Int)

/-- The spec's per-cell inference: Float by rule (1), else Integer by rule
(2), else Text. -/
def specInfer (s : List Char) : Cell :=
  if specFloatPat s then .float (specFloatVal s)
  else if specIntPat s then .int (specIntVal s)
  else .text s

/-! ## Lemmas for claim C5 -/

lemma isDig_ne_dot {c : Char} (h : isDig c = true) : ¬(c = '.') := by
  rintro rfl; exact absurd h (by decide)

lemma isDig_ne_minus {c : Char} (h : isDig c = true) : ¬(c = '-') := by
  rintro rfl; exact absurd h (by decide)

lemma takeWhile_middle (p : Char → Bool) (a : List Char) (c : Char) (b : List Char)
    (ha : ∀ x ∈ a, p x = true) (hc : p c = false) :
    (a ++ c :: b).takeWhile p = a ∧ (a ++ c :: b).dropWhile p = c :: b := by
  induction a with
  | nil => simp [List.takeWhile_cons, List.dropWhile_cons, hc]
  | cons x a ih =>
    have hx : p x = true := ha x (by simp)
    have h2 := ih (fun y hy => ha y (by simp [hy]))
    simp [List.takeWhile_cons, List.dropWhile_cons, hx, h2.1, h2.2]

lemma count_one_split {t : List Char} (h : t.count '.' = 1) :
    ∃ a b, t = a ++ '.' :: b ∧ (∀ x ∈ a, ¬(x = '.')) ∧ (∀ x ∈ b, ¬(x = '.')) := by
  induction t with
  | nil => simp at h
  | cons c t ih =>
    by_cases hc : c = '.'
    · subst hc
      have ht : t.count '.' = 0 := by
        simpa [List.count_cons] using h
      refine ⟨[], t, rfl, by simp, fun x hx hx' => ?_⟩
      rw [List.count_eq_zero] at ht
      exact ht (hx' ▸ hx)
    · have ht : t.count '.' = 1 := by
        simpa [List.count_cons, hc] using h
      obtain ⟨a, b, rfl, hA, hB⟩ := ih ht
      refine ⟨c :: a, b, rfl, fun x hx => ?_, hB⟩
      rcases List.mem_cons.mp hx with rfl | hx
      · exact hc
      · exact hA x hx

lemma filter_ne_dot {a : List Char} (hA : ∀ x ∈ a, ¬(x = '.')) :
    a.filter (· ≠ '.') = a := by
  induction a with
  | nil => rfl
  | cons x t ih =>
    have hx : ¬(x = '.') := hA x (by simp)
    have ht : t.filter (· ≠ '.') = t := ih (fun y hy => hA y (List.mem_cons_of_mem _ hy))
    simp only [List.filter_cons]
    simp [hx, ht]
    exact fun y hy => hA y (List.mem_cons_of_mem _ hy)

lemma filter_ne_minus {a : List Char} (hA : ∀ x ∈ a, ¬(x = '-')) :
    a.filter (· ≠ '-') = a := by
  induction a with
  | nil => rfl
  | cons x t ih =>
    have hx : ¬(x = '-') := hA x (by simp)
    have ht : t.filter (· ≠ '-') = t := ih (fun y hy => hA y (List.mem_cons_of_mem _ hy))
    simp only [List.filter_cons]
    simp [hx, ht]
    exact fun y hy => hA y (List.mem_cons_of_mem _ hy)

lemma specFloat_split {s : List Char} (h : specFloatPat s = true) :
    s.contains '.' = true ∧
    ∃ a b, dropLeadMinus s = a ++ '.' :: b ∧ (∀ x ∈ a, isDig x = true) ∧
      (∀ x ∈ b, isDig x = true) ∧ (a ++ b ≠ []) := by
  simp only [specFloatPat, Bool.and_eq_true, beq_iff_eq, Bool.not_eq_true',
    List.isEmpty_iff, List.all_eq_true] at h
  obtain ⟨⟨h1, h2⟩, h3, h4⟩ := h
  obtain ⟨a, b, he, hA, hB⟩ := count_one_split h2
  have hu : (dropLeadMinus s).filter (· ≠ '.') = a ++ b := by
    rw [he, List.filter_append, filter_ne_dot hA, List.filter_cons]
    simp [filter_ne_dot hB]
    exact hB
  rw [hu] at h3 h4
  refine ⟨h1, a, b, he, fun x hx => h4 x (List.mem_append_left _ hx),
    fun x hx => h4 x (List.mem_append_right _ hx), fun hh => by simp [hh] at h3⟩

lemma pyFloatCore_of_split {a b : List Char} (hA : ∀ x ∈ a, isDig x = true)
    (hB : ∀ x ∈ b, isDig x = true) (hne : a ++ b ≠ []) :
    pyFloatCore (a ++ '.' :: b) =
      some ((digitsVal a : ℚ) + (digitsVal b : ℚ) / (10 : ℚ) ^ b.length) := by
  have hsp := takeWhile_middle isDig a '.' b hA (by decide)
  have hb : b.all isDig = true := List.all_eq_true.mpr hB
  have hne2 : ¬(a.isEmpty = true ∧ b.isEmpty = true) := by
    rw [List.isEmpty_iff, List.isEmpty_iff]
    rintro ⟨rfl, rfl⟩; exact hne rfl
  simp only [pyFloatCore, hsp.1, hsp.2]
  simp [hb]
  intro ha hbnil
  exact hne (by rw [ha, hbnil]; rfl)

lemma specFloatVal_of_split {s : List Char} {a b : List Char}
    (he : dropLeadMinus s = a ++ '.' :: b)
    (hA : ∀ x ∈ a, isDig x = true) :
    specFloatVal s =
      (if s.head? = some '-' then
        -((digitsVal a : ℚ) + (digitsVal b : ℚ) / (10 : ℚ) ^ b.length)
      else ((digitsVal a : ℚ) + (digitsVal b : ℚ) / (10 : ℚ) ^ b.length)) := by
  have hsp := takeWhile_middle (fun x => decide (x ≠ '.')) a '.' b
    (fun x hx => by simpa using isDig_ne_dot (hA x hx)) (by simp)
  simp only [specFloatVal, he, hsp.1, hsp.2, List.tail_cons]

lemma digitsFilter {a : List Char} (hA : ∀ x ∈ a, isDig x = true) :
    a.filter (· ≠ '.') = a ∧ a.filter (· ≠ '-') = a :=
  ⟨filter_ne_dot (fun x hx => isDig_ne_dot (hA x hx)),
   filter_ne_minus (fun x hx => isDig_ne_minus (hA x hx))⟩

lemma specFloat_code {s : List Char} (h : specFloatPat s = true) :
    s.contains '.' = true ∧
    pyIsdigit ((s.filter (· ≠ '.')).filter (· ≠ '-')) = true ∧
    pyFloat s = some (specFloatVal s) := by
  obtain ⟨h1, a, b, he, hA, hB, hne⟩ := specFloat_split h
  have hval := specFloatVal_of_split he hA
  have hcore := pyFloatCore_of_split hA hB hne
  have hdig : pyIsdigit (a ++ b) = true := by
    simp only [pyIsdigit, Bool.and_eq_true, Bool.not_eq_true', List.isEmpty_iff,
      List.all_eq_true]
    refine ⟨by simpa using hne, fun x hx => ?_⟩
    rcases List.mem_append.mp hx with hx | hx
    · exact hA x hx
    · exact hB x hx
  have hmid : ((a ++ '.' :: b).filter (· ≠ '.')) = a ++ b := by
    rw [List.filter_append, (digitsFilter hA).1, List.filter_cons]
    simp [(digitsFilter hB).1]
    exact fun y hy => isDig_ne_dot (hB y hy)
  have hmid2 : ((a ++ b).filter (· ≠ '-')) = a ++ b := by
    rw [List.filter_append, (digitsFilter hA).2, (digitsFilter hB).2]
  by_cases hm : s.head? = some '-'
  · have htl : s.tail = a ++ '.' :: b := by
      rw [← he]; simp [dropLeadMinus, hm]
    obtain ⟨t, rfl⟩ : ∃ t, s = '-' :: t := by
      cases s with
      | nil => simp at hm
      | cons c t => exact ⟨t, by rw [List.head?_cons, Option.some_inj] at hm; rw [hm]⟩
    rw [List.tail_cons] at htl
    subst htl
    refine ⟨by simpa using h1, ?_, ?_⟩
    · have e1 : (('-' :: (a ++ '.' :: b)).filter (· ≠ '.')) = '-' :: (a ++ b) := by
        rw [List.filter_cons, hmid]
        simp
      have e2 : (('-' :: (a ++ b)).filter (· ≠ '-')) = a ++ b := by
        rw [List.filter_cons, hmid2]
        simp
      rw [e1, e2]
      exact hdig
    · simp only [pyFloat, List.head?_cons, Option.some_inj, if_pos rfl,
        List.tail_cons, hcore, Option.map_some]
      rw [hval]
      simp
  · have hts : s = a ++ '.' :: b := by
      rw [← he]; simp [dropLeadMinus, hm]
    subst hts
    refine ⟨h1, ?_, ?_⟩
    · rw [hmid, hmid2]
      exact hdig
    · rw [pyFloat, if_neg hm, hcore, hval, if_neg hm]

lemma contains_iff {l : List Char} {c : Char} : l.contains c = true ↔ c ∈ l := by
  induction l with
  | nil => simp
  | cons x t ih => simp [List.contains_cons, ih]

lemma pyFloat_some_pat {s : List Char} {q : ℚ} (hdot : s.contains '.' = true)
    (h : pyFloat s = some q) : specFloatPat s = true := by
  have hmem : '.' ∈ s := contains_iff.mp hdot
  have key : ∀ t : List Char, '.' ∈ t → ∀ q0 : ℚ, pyFloatCore t = some q0 →
      t.count '.' = 1 ∧
      (let u := t.filter (· ≠ '.'); u ≠ [] ∧ ∀ x ∈ u, isDig x = true) := by
    intro t hdt q0 hq
    have hip : ∀ x ∈ t.takeWhile isDig, isDig x = true :=
      fun x hx => List.mem_takeWhile_imp hx
    rw [pyFloatCore] at hq
    by_cases he : (t.dropWhile isDig).isEmpty
    · exfalso
      have ht : t = t.takeWhile isDig := by
        conv_lhs => rw [← List.takeWhile_append_dropWhile isDig t]
        rw [List.isEmpty_iff.mp he, List.append_nil]
      have : isDig '.' = true := hip '.' (ht ▸ hdt)
      exact absurd this (by decide)
    · rw [if_neg (by simpa using he)] at hq
      by_cases hh : (t.dropWhile isDig).head? = some '.'
      · obtain ⟨fp, hfp⟩ : ∃ fp, t.dropWhile isDig = '.' :: fp := by
          cases hr : t.dropWhile isDig with
          | nil => rw [hr] at he; simp at he
          | cons c r =>
            rw [hr, List.head?_cons, Option.some_inj] at hh
            exact ⟨r, by rw [hh]⟩
        rw [if_pos hh] at hq
        rw [hfp, List.tail_cons] at hq
        have hcond : fp.all isDig = true ∧
            ¬((t.takeWhile isDig).isEmpty = true ∧ fp.isEmpty = true) := by
          by_contra hc
          rw [if_neg hc] at hq
          exact Option.noConfusion hq
        have hfpd : ∀ x ∈ fp, isDig x = true := List.all_eq_true.mp hcond.1
        have ht : t = t.takeWhile isDig ++ '.' :: fp := by
          conv_lhs => rw [← List.takeWhile_append_dropWhile isDig t]
          rw [hfp]
        constructor
        · rw [ht, List.count_append, List.count_cons]
          have c1 : (t.takeWhile isDig).count '.' = 0 :=
            List.count_eq_zero.mpr (fun hm => absurd (hip '.' hm) (by decide))
          have c2 : fp.count '.' = 0 :=
            List.count_eq_zero.mpr (fun hm => absurd (hfpd '.' hm) (by decide))
          simp [c1, c2]
        · have hu : t.filter (· ≠ '.') = t.takeWhile isDig ++ fp := by
            conv_lhs => rw [ht]
            rw [List.filter_append, filter_ne_dot (fun x hx => isDig_ne_dot (hip x hx)),
              List.filter_cons]
            simp
            exact fun y hy => isDig_ne_dot (hfpd y hy)
          refine ⟨?_, ?_⟩
          · rw [hu]
            intro hnil
            rw [List.isEmpty_iff.symm] at hnil
            · have := List.append_eq_nil.mp (List.isEmpty_iff.mp hnil)
              exact hcond.2 ⟨List.isEmpty_iff.mpr this.1, List.isEmpty_iff.mpr this.2⟩
          · rw [hu]
            intro x hx
            rcases List.mem_append.mp hx with hx | hx
            · exact hip x hx
            · exact hfpd x hx
      · rw [if_neg hh] at hq
        exact Option.noConfusion hq
  by_cases hm : s.head? = some '-'
  · obtain ⟨t, rfl⟩ : ∃ t, s = '-' :: t := by
      cases s with
      | nil => simp at hm
      | cons c t => exact ⟨t, by rw [List.head?_cons, Option.some_inj] at hm; rw [hm]⟩
    have hdt : '.' ∈ t := by
      rcases List.mem_cons.mp hmem with hh | hh
      · exact absurd hh (by decide)
      · exact hh
    rw [pyFloat, if_pos (by simp)] at h
    rw [List.tail_cons] at h
    obtain ⟨q0, hq0, _⟩ := Option.map_eq_some'.mp h
    obtain ⟨hcount, hu⟩ := key t hdt q0 hq0
    simp only [specFloatPat, Bool.and_eq_true, beq_iff_eq, Bool.not_eq_true',
      List.isEmpty_iff, List.all_eq_true]
    have hdm : dropLeadMinus ('-' :: t) = t := by simp [dropLeadMinus]
    rw [hdm]
    exact ⟨⟨hdot, hcount⟩, by simpa using hu.1, hu.2⟩
  · rw [pyFloat, if_neg hm] at h
    obtain ⟨hcount, hu⟩ := key s hmem q h
    simp only [specFloatPat, Bool.and_eq_true, beq_iff_eq, Bool.not_eq_true',
      List.isEmpty_iff, List.all_eq_true]
    have hdm : dropLeadMinus s = s := by simp [dropLeadMinus, hm]
    rw [hdm]
    exact ⟨⟨hdot, hcount⟩, by simpa using hu.1, hu.2⟩

lemma intPat_no_dot {s : List Char} (h : specIntPat s = true) :
    s.contains '.' = false := by
  simp only [specIntPat, Bool.or_eq_true, Bool.and_eq_true, decide_eq_true_eq,
    pyIsdigit, Bool.not_eq_true', List.isEmpty_iff, List.all_eq_true] at h
  rw [← Bool.not_eq_true, contains_iff]
  intro hmem
  rcases h with ⟨_, hall⟩ | ⟨hh, _, hall⟩
  · exact absurd (hall '.' hmem) (by decide)
  · obtain ⟨t, rfl⟩ : ∃ t, s = '-' :: t := by
      cases s with
      | nil => simp at hh
      | cons c t => exact ⟨t, by rw [List.head?_cons, Option.some_inj] at hh; rw [hh]⟩
    rcases List.mem_cons.mp hmem with hd | hd
    · exact absurd hd (by decide)
    · exact absurd (hall '.' (by simpa using hd)) (by decide)

lemma specInt_code {s : List Char} (h : specIntPat s = true) :
    pyInt s = some (specIntVal s) := by
  rcases Bool.or_eq_true_iff.mp h with hd | hmt
  · have hm : ¬(s.head? = some '-') := by
      intro hm
      obtain ⟨t, rfl⟩ : ∃ t, s = '-' :: t := by
        cases s with
        | nil => simp at hm
        | cons c t => exact ⟨t, by rw [List.head?_cons, Option.some_inj] at hm; rw [hm]⟩
      simp only [pyIsdigit, List.all_cons, Bool.and_eq_true, Bool.not_eq_true',
        List.isEmpty_iff] at hd
      exact absurd hd.2.1 (by decide)
    rw [pyInt, if_pos hd, specIntVal, if_neg hm]
  · have hmm := Bool.and_eq_true_iff.mp hmt
    have hm : s.head? = some '-' := by simpa using hmm.1
    have hd : pyIsdigit s = false := by
      obtain ⟨t, rfl⟩ : ∃ t, s = '-' :: t := by
        cases s with
        | nil => simp at hm
        | cons c t => exact ⟨t, by rw [List.head?_cons, Option.some_inj] at hm; rw [hm]⟩
      simp [pyIsdigit, isDig]
    rw [pyInt, if_neg (by simp [hd]), if_pos ⟨hm, hmm.2⟩, specIntVal, if_pos hm]

lemma inferCell_eq_specInfer (s : List Char) : inferCell s = specInfer s := by
  by_cases hp : specFloatPat s = true
  · obtain ⟨h1, h2, h3⟩ := specFloat_code hp
    rw [specInfer, if_pos hp, inferCell, if_pos ⟨h1, h2⟩, h3]
  · by_cases hg : s.contains '.' = true ∧
        pyIsdigit ((s.filter (· ≠ '.')).filter (· ≠ '-')) = true
    · have hnone : pyFloat s = none := by
        cases hF : pyFloat s with
        | none => rfl
        | some q => exact absurd (pyFloat_some_pat hg.1 hF) hp
      rw [inferCell, if_pos hg, hnone, specInfer, if_neg hp]
      have hint : specIntPat s = false := by
        by_cases hi : specIntPat s = true
        · rw [intPat_no_dot hi] at hg
          exact absurd hg.1 (by simp)
        · simpa using hi
      rw [if_neg (by simp [hint])]
    · rw [inferCell, if_neg hg, specInfer, if_neg hp]
      by_cases hi : specIntPat s = true
      · have h4 := specInt_code hi
        have hc : pyIsdigit s = true ∨ (s.head? = some '-' ∧ pyIsdigit s.tail = true) := by
          simpa [specIntPat, Bool.or_eq_true, Bool.and_eq_true, decide_eq_true_eq] using hi
        rw [if_pos hc, h4, if_pos hi]
      · have hc : ¬(pyIsdigit s = true ∨ (s.head? = some '-' ∧ pyIsdigit s.tail = true)) := by
          simpa [specIntPat, Bool.or_eq_true, Bool.and_eq_true, decide_eq_true_eq] using hi
        rw [if_neg hc, if_neg hi]

/-- C5: type inference applies exactly the spec's priority order — rule (1)
decimal-point pattern gives Float, else rule (2) digit pattern gives
Integer, else Text — for every cell text, and the spec's seven examples
evaluate as stated. -/
theorem C5_type_inference_priority :
    (∀ s : List Char, inferCell s = specInfer s) ∧
    inferCell "123".toList = .int 123 ∧
    inferCell "-45".toList = .int (-45) ∧
    inferCell "3.14".toList = .float (3.14 : ℚ) ∧
    inferCell "-0.5".toList = .float (-0.5 : ℚ) ∧
    inferCell "abc".toList = .text "abc".toList ∧
    inferCell "".toList = .text "".toList ∧
    inferCell "12.3.4".toList = .text "12.3.4".toList := by
  refine ⟨inferCell_eq_specInfer, by decide, by decide, ?_, ?_, by decide, by decide,
    by decide⟩
  · have h := specFloat_code (s := "3.14".toList) (by decide)
    rw [inferCell, if_pos ⟨h.1, h.2.1⟩, h.2.2]
    simp [specFloatVal, dropLeadMinus, digitsVal, List.takeWhile_cons,
      List.dropWhile_cons]
    norm_num
  · have h := specFloat_code (s := "-0.5".toList) (by decide)
    rw [inferCell, if_pos ⟨h.1, h.2.1⟩, h.2.2]
    simp [specFloatVal, dropLeadMinus, digitsVal, List.takeWhile_cons,
      List.dropWhile_cons]
    norm_num

/-! ## Lemmas for claims C7-C10 — row building and line handling -/

/-- dictInsert of a fresh key appends at the end. -/
lemma dictInsert_fresh {α : Type} (l : List ((List Char) × α)) (k : List Char) (v : α)
    (h : ∀ q ∈ l, ¬(q.1 = k)) : dictInsert l k v = l ++ [(k, v)] := by
  induction l with
  | nil => rfl
  | cons q rest ih =>
    rw [dictInsert, if_neg (h q (by simp))]
    rw [ih (fun r hr => h r (List.mem_cons_of_mem _ hr))]
    rfl

/-- Folding dict insertion over pairs with fresh, pairwise-distinct keys
appends the pairs in order. -/
lemma foldl_dictInsert_fresh {α : Type} (pairs : List ((List Char) × α)) :
    ∀ (acc : List ((List Char) × α)),
    (∀ p ∈ pairs, ∀ q ∈ acc, ¬(p.1 = q.1)) → (pairs.map Prod.fst).Nodup →
    pairs.foldl (fun a kv => dictInsert a kv.1 kv.2) acc = acc ++ pairs := by
  induction pairs with
  | nil => intro acc _ _; simp
  | cons kv rest ih =>
    intro acc hfresh hnd
    rw [List.foldl_cons]
    rw [dictInsert_fresh acc kv.1 kv.2
      (fun q hq h => hfresh kv (by simp) q hq h.symm)]
    rw [List.map_cons, List.nodup_cons] at hnd
    rw [ih (acc ++ [(kv.1, kv.2)]) ?_ hnd.2]
    · simp
    · intro p hp q hq
      rcases List.mem_append.mp hq with hq | hq
      · exact hfresh p (List.mem_cons_of_mem _ hp) q hq
      · have : q = (kv.1, kv.2) := by simpa using hq
        rw [this]
        intro hcontra
        exact hnd.1 (hcontra ▸ List.mem_map_of_mem Prod.fst hp)

/-- With pairwise-distinct headers, buildRow zips the headers against the
empty-string-padded fields, inferring each cell's type. -/
lemma buildRow_eq_zip (hs : List (List Char)) (parts : List (List Char))
    (hlen : parts.length ≤ hs.length) (hnd : hs.Nodup) :
    buildRow hs parts =
      (hs.zip (parts ++ List.replicate (hs.length - parts.length) [])).map
        (fun hp => (hp.1, inferCell hp.2)) := by
  rw [buildRow]
  have hlen2 : hs.length ≤ (parts ++ List.replicate (hs.length - parts.length)
      ([] : List Char)).length := by
    simp [List.length_append, List.length_replicate]
    omega
  have hfst : ((hs.zip (parts ++ List.replicate (hs.length - parts.length) [])).map
      (fun hp => (hp.1, inferCell hp.2))).map Prod.fst = hs := by
    rw [List.map_map]
    have : (Prod.fst ∘ fun hp : (List Char) × (List Char) => (hp.1, inferCell hp.2)) =
        Prod.fst := rfl
    rw [this, List.map_fst_zip _ _ hlen2]
  have := foldl_dictInsert_fresh
    ((hs.zip (parts ++ List.replicate (hs.length - parts.length) [])).map
      (fun hp => (hp.1, inferCell hp.2))) [] (by simp) (by rw [hfst]; exact hnd)
  rw [List.foldl_map] at this
  simpa using this

/-- C7: a data row with fewer fields than the captured header is
right-padded with empty-string cells, so every header column is present:
in general buildRow equals the header list zipped against the padded
fields, and the spec's concrete example parses as stated. -/
theorem C7_short_row_padding :
    (∀ hs parts : List (List Char), parts.length ≤ hs.length → hs.Nodup →
      buildRow hs parts =
        (hs.zip (parts ++ List.replicate (hs.length - parts.length) [])).map
          (fun hp => (hp.1, inferCell hp.2))) ∧
    parse_save_data "###T\nA\tB\tC\n1\t2\n".toList =
      .ok ([("T".toList,
             [[("A".toList, .int 1), ("B".toList, .int 2), ("C".toList, .text [])]])],
           [("T".toList, ["A".toList, "B".toList, "C".toList])]) :=
  ⟨buildRow_eq_zip, by decide⟩

/-- C7 witness: the general padding law applied to header [A, B, C] and
fields [1, 2]. -/
theorem C7_short_row_padding_witness :
    buildRow ["A".toList, "B".toList, "C".toList] ["1".toList, "2".toList] =
      [("A".toList, .int 1), ("B".toList, .int 2), ("C".toList, .text [])] := by
  rw [C7_short_row_padding.1 ["A".toList, "B".toList, "C".toList]
    ["1".toList, "2".toList] (by decide) (by decide)]
  decide

/-- C8: a line in a table section whose tab-split field count exceeds the
captured header's column count is not a data row: the parser state is
unchanged (no row appended) and parsing continues; concretely the
over-long row 1,2,3 under header [A, B] is dropped while 4,5 survives. -/
theorem C8_long_row_skipped :
    (∀ (st : PSt) (line name : List Char),
      st.cur = some name → ¬(st.curHs.isEmpty = true) →
      (pyStripChars line).isEmpty = false → isMarker (pyStripChars line) = false →
      st.curHs.length < (splitOn1 '\t' (pyStripChars line)).length →
      parseLine st line = .ok st) ∧
    parse_save_data "###T\nA\tB\n1\t2\t3\n4\t5\n".toList =
      .ok ([("T".toList, [[("A".toList, .int 4), ("B".toList, .int 5)]])],
           [("T".toList, ["A".toList, "B".toList])]) := by
  refine ⟨?_, by decide⟩
  intro st line name hcur hhs hline hmark hlen
  rw [parseLine]
  simp only [hline, Bool.false_eq_true, if_false, hmark, hcur]
  rw [if_neg ?_, if_neg ?_]
  · intro h
    exact absurd h.2 (by omega)
  · intro h
    exact hhs h.1

/-- C8 witness: the skip law applied to a concrete state and over-long line. -/
theorem C8_long_row_skipped_witness :
    parseLine ⟨[("T".toList, [])], [("T".toList, ["A".toList, "B".toList])],
        some "T".toList, ["A".toList, "B".toList]⟩ "1\t2\t3".toList =
      .ok ⟨[("T".toList, [])], [("T".toList, ["A".toList, "B".toList])],
        some "T".toList, ["A".toList, "B".toList]⟩ :=
  C8_long_row_skipped.1 _ _ "T".toList (by decide) (by decide) (by decide)
    (by decide) (by decide)

/-- C9: emission uses exactly the captured column order.  (i) A rendered
row depends only on the row's lookups at the captured headers, so two rows
whose own key sets differ in order or carry extra keys render identically;
(ii) a key missing from a row renders as the empty string; (iii) when a
header order was captured for a table, save_as_yls emits the header line
and every data row in exactly that order, regardless of the rows' keys. -/
theorem C9_format_captured_order :
    (∀ (hs : List (List Char)) (r1 r2 : Row),
      (∀ h ∈ hs, dictGet r1 h = dictGet r2 h) →
      renderRow hs r1 = renderRow hs r2) ∧
    (∀ (r : Row) (h : List Char), dictGet r h = none → renderField r h = []) ∧
    (∀ (tables : List (List Char × List Row))
       (headers : List (List Char × List (List Char)))
       (name : List Char) (hs : List (List Char)) (r0 : Row) (rows : List Row),
      dictGet headers name = some hs →
      save_as_yls_text ((name, r0 :: rows) :: tables) headers =
        (('#' :: '#' :: '#' :: name) ++ '\n' ::
          ((joinTab hs ++ ['\n']) ++
            ((r0 :: rows).map fun row => renderRow hs row ++ ['\n']).flatten ++ ['\n'])) ++
        save_as_yls_text tables headers) := by
  refine ⟨?_, ?_, ?_⟩
  · intro hs r1 r2 hagree
    rw [renderRow, renderRow]
    congr 1
    exact List.map_congr_left fun h hh => by rw [renderField, renderField, hagree h hh]
  · intro r h hmiss
    rw [renderField, hmiss]
    rfl
  · intro tables headers name hs r0 rows hcap
    rw [save_as_yls_text, save_as_yls_text]
    simp only [List.map_cons, List.flatten_cons, hcap, Option.getD_some]

/-- C9 witness: the invariance law applied to two concrete rows that agree
on the captured headers A, B but differ in key order and extra keys. -/
theorem C9_format_captured_order_witness :
    renderRow ["A".toList, "B".toList]
        [("A".toList, .int 1), ("B".toList, .int 2)] =
      renderRow ["A".toList, "B".toList]
        [("B".toList, .int 2), ("A".toList, .int 1), ("C".toList, .int 9)] :=
  C9_format_captured_order.1 _ _ _ (by decide)

/-! ## Claim C10 — parse never fails -/

/-- Parser-state invariant: the current table name, when set, has an entry
in the tables dict (established by the marker branch that sets it). -/
def PInv (st : PSt) : Prop :=
  ∀ n, st.cur = some n → ∃ rows, dictGet st.tables n = some rows

lemma dictGet_insert_self {α : Type} (l : List ((List Char) × α)) (k : List Char)
    (v : α) : dictGet (dictInsert l k v) k = some v := by
  induction l with
  | nil => simp [dictInsert, dictGet]
  | cons q rest ih =>
    by_cases hq : q.1 = k
    · rw [dictInsert, if_pos hq, dictGet, if_pos hq]
    · rw [dictInsert, if_neg hq, dictGet, if_neg hq, ih]

lemma appendRow_ok {l : List (List Char × List Row)} {k : List Char} {rows : List Row}
    (row : Row) (h : dictGet l k = some rows) :
    ∃ l2, appendRow l k row = .ok l2 ∧ dictGet l2 k = some (rows ++ [row]) := by
  induction l with
  | nil => simp [dictGet] at h
  | cons q rest ih =>
    by_cases hq : q.1 = k
    · rw [dictGet, if_pos hq] at h
      refine ⟨(q.1, rows ++ [row]) :: rest, ?_, by rw [dictGet, if_pos hq]⟩
      rw [appendRow.eq_def]
      cases q with
      | mk k0 rows0 =>
        simp only at hq h ⊢
        rw [if_pos hq, Option.some_inj.mp h]
    · rw [dictGet, if_neg hq] at h
      obtain ⟨l2, hl2, hg⟩ := ih h
      refine ⟨(q.1, q.2) :: l2, ?_, by rw [dictGet, if_neg hq]; exact hg⟩
      rw [appendRow.eq_def]
      cases q with
      | mk k0 rows0 =>
        simp only at hq hl2 ⊢
        rw [if_neg hq, hl2]
        rfl

lemma parseLine_ok {st : PSt} (hinv : PInv st) (l : List Char) :
    ∃ st2, parseLine st l = .ok st2 ∧ PInv st2 := by
  rw [parseLine]
  by_cases hb : (pyStripChars l).isEmpty
  · exact ⟨st, by rw [if_pos hb], hinv⟩
  · rw [if_neg hb]
    by_cases hmk : isMarker (pyStripChars l) = true
    · rw [if_pos hmk]
      refine ⟨_, rfl, ?_⟩
      intro n hn
      simp only [Option.some_inj] at hn
      exact ⟨[], hn ▸ dictGet_insert_self st.tables _ []⟩
    · rw [if_neg hmk]
      cases hcur : st.cur with
      | none => exact ⟨st, rfl, hinv⟩
      | some name =>
        dsimp only
        by_cases hh : st.curHs.isEmpty = true ∧
            1 < (splitOn1 '\t' (pyStripChars l)).length
        · rw [if_pos hh]
          refine ⟨_, rfl, ?_⟩
          intro n hn
          simp only at hn
          exact hinv n (hcur.trans (by rw [Option.some_inj.mp hn]))
        · rw [if_neg hh]
          by_cases hd : ¬st.curHs.isEmpty = true ∧
              (splitOn1 '\t' (pyStripChars l)).length ≤ st.curHs.length
          · rw [if_pos hd]
            obtain ⟨rows, hrows⟩ := hinv name hcur
            obtain ⟨l2, hl2, hg⟩ :=
              appendRow_ok (buildRow st.curHs (splitOn1 '\t' (pyStripChars l))) hrows
            rw [hl2]
            refine ⟨_, rfl, ?_⟩
            intro n hn
            dsimp only at hn ⊢
            exact ⟨rows ++ [buildRow st.curHs (splitOn1 '\t' (pyStripChars l))],
              (Option.some_inj.mp hn) ▸ hg⟩
          · rw [if_neg hd]
            exact ⟨st, rfl, hinv⟩

lemma foldlM_parseLine_ok (lines : List (List Char)) :
    ∀ st : PSt, PInv st → ∃ st2, lines.foldlM parseLine st = .ok st2 := by
  induction lines with
  | nil => intro st _; exact ⟨st, rfl⟩
  | cons l rest ih =>
    intro st hinv
    obtain ⟨st1, h1, hinv1⟩ := parseLine_ok hinv l
    obtain ⟨st2, h2⟩ := ih st1 hinv1
    refine ⟨st2, ?_⟩
    rw [List.foldlM_cons, h1]
    exact h2

/-- C10: parse_save_data is total — for every input string it returns
normally (the bare except keeps failed numeric conversions as text, and a
row is only appended under a current table name that the marker branch has
entered into the tables dict, so the lookup never fails). -/
theorem C10_parse_total (data : List Char) :
    ∃ res, parse_save_data data = .ok res := by
  obtain ⟨st2, h2⟩ := foldlM_parseLine_ok (splitOn1 '\n' data) PSt.init
    (fun n hn => by simp [PSt.init] at hn)
  exact ⟨(st2.tables, st2.headers), by rw [parse_save_data, h2]; rfl⟩

/-! ## Claim C6 — which inputs raise the base64-stage error

base64.b64decode (binascii.a2b_base64, non-strict) discards characters
outside the alphabet instead of rejecting them, so an input containing
such characters need not fail at the base64 stage at all.  The error is
raised exactly when the surviving data characters end mid-quad. -/

/-- C6 (amended): characters outside the alphabet are discarded by the
base64 decoder; decode fails with the base64-stage typed error exactly
when the base64 decoder itself fails — i.e. when the surviving data
characters end mid-quad (a stray single character, or an incomplete final
quad whose padding never completes).  Whenever the base64 decoder fails,
decode_base64_gzip surfaces that failure as the base64-stage ValueError,
and in particular "not-valid-base64!!" (14 surviving characters, two short
of a quad boundary) raises the base64-stage incorrect-padding error. -/
theorem C6_base64_error_amended :
    (∀ (s : List Nat) (e : String), pyB64Decode (pyStrip s) = .error e →
      decode_base64_gzip s = .error (.base64 e)) ∧
    decode_base64_gzip ("not-valid-base64!!".toList.map Char.toNat) =
      .error (.base64 "incorrect padding") := by
  constructor
  · intro s e h
    rw [decode_base64_gzip, h]
    rfl
  · decide

/-- C6 witness: the amended propagation law applied to the two-character
input "ab", whose base64 decode fails with incorrect padding. -/
theorem C6_base64_error_amended_witness :
    decode_base64_gzip [97, 98] = .error (.base64 "incorrect padding") :=
  C6_base64_error_amended.1 [97, 98] "incorrect padding" (by decide)

/-! ## Base64 round-trip lemmas -/

lemma b64chr_ne_pad : ∀ n, n < 64 → ¬(b64chr n = 61) := by decide

lemma b64Table_chr : ∀ n, n < 64 → b64Table (b64chr n) = some n := by decide

lemma a2b_skip {c : Nat} (hc : ¬(c = 61)) (ht : b64Table c = none)
    (rest : List Nat) (qp leftc pads : Nat) (acc : List Nat) :
    a2bAux (c :: rest) qp leftc pads acc = a2bAux rest qp leftc pads acc := by
  rw [a2bAux, if_neg hc, ht]

lemma a2b_step0 {v : Nat} (hv : v < 64) (rest : List Nat) (leftc pads : Nat)
    (acc : List Nat) :
    a2bAux (b64chr v :: rest) 0 leftc pads acc = a2bAux rest 1 v 0 acc := by
  rw [a2bAux, if_neg (b64chr_ne_pad v hv), b64Table_chr v hv]

lemma a2b_step1 {v : Nat} (hv : v < 64) (rest : List Nat) (leftc pads : Nat)
    (acc : List Nat) :
    a2bAux (b64chr v :: rest) 1 leftc pads acc =
      a2bAux rest 2 (v % 16) 0 (acc ++ [leftc * 4 + v / 16]) := by
  rw [a2bAux, if_neg (b64chr_ne_pad v hv), b64Table_chr v hv]

lemma a2b_step2 {v : Nat} (hv : v < 64) (rest : List Nat) (leftc pads : Nat)
    (acc : List Nat) :
    a2bAux (b64chr v :: rest) 2 leftc pads acc =
      a2bAux rest 3 (v % 4) 0 (acc ++ [leftc * 16 + v / 4]) := by
  rw [a2bAux, if_neg (b64chr_ne_pad v hv), b64Table_chr v hv]

lemma a2b_step3 {v : Nat} (hv : v < 64) (rest : List Nat) (leftc pads : Nat)
    (acc : List Nat) :
    a2bAux (b64chr v :: rest) 3 leftc pads acc =
      a2bAux rest 0 0 0 (acc ++ [leftc * 64 + v]) := by
  rw [a2bAux, if_neg (b64chr_ne_pad v hv), b64Table_chr v hv]

/-- Decoding one full four-character group appends the three bytes it
encodes and returns to quad position 0 with pads reset. -/
lemma a2b_group {b0 b1 b2 : Nat} (h0 : b0 < 256) (h1 : b1 < 256) (h2 : b2 < 256)
    (rest : List Nat) (leftc pads : Nat) (acc : List Nat) :
    a2bAux (b64chr (b0 / 4) :: b64chr (b0 % 4 * 16 + b1 / 16) ::
        b64chr (b1 % 16 * 4 + b2 / 64) :: b64chr (b2 % 64) :: rest)
      0 leftc pads acc = a2bAux rest 0 0 0 (acc ++ [b0, b1, b2]) := by
  rw [a2b_step0 (by omega), a2b_step1 (by omega), a2b_step2 (by omega),
    a2b_step3 (by omega)]
  have e1 : b0 / 4 * 4 + (b0 % 4 * 16 + b1 / 16) / 16 = b0 := by omega
  have e2 : (b0 % 4 * 16 + b1 / 16) % 16 = b1 / 16 := by omega
  have e3 : b1 / 16 * 16 + (b1 % 16 * 4 + b2 / 64) / 4 = b1 := by omega
  have e4 : (b1 % 16 * 4 + b2 / 64) % 4 = b2 / 64 := by omega
  have e5 : b2 / 64 * 64 + b2 % 64 = b2 := by omega
  rw [e1, e2, e3, e4, e5]
  simp

/-- Base64 round trip: the CPython non-strict decoder inverts b64encode. -/
lemma a2b_encode (x : List Nat) (hx : ∀ b ∈ x, b < 256) :
    ∀ (leftc pads : Nat) (acc : List Nat),
      a2bAux (b64encode x) 0 leftc pads acc = .ok (acc ++ x) := by
  induction x using b64encode.induct with
  | case1 b0 b1 b2 rest ih =>
    intro leftc pads acc
    rw [b64encode]
    rw [a2b_group (hx b0 (by simp)) (hx b1 (by simp)) (hx b2 (by simp))]
    rw [ih (fun b hb => hx b (by simp [hb])) 0 0 (acc ++ [b0, b1, b2])]
    simp
  | case2 b0 b1 =>
    intro leftc pads acc
    have h0 : b0 < 256 := hx b0 (by simp)
    have h1 : b1 < 256 := hx b1 (by simp)
    rw [b64encode]
    rw [a2b_step0 (by omega), a2b_step1 (by omega), a2b_step2 (by omega)]
    have e1 : b0 / 4 * 4 + (b0 % 4 * 16 + b1 / 16) / 16 = b0 := by omega
    have e2 : (b0 % 4 * 16 + b1 / 16) % 16 = b1 / 16 := by omega
    have e3 : b1 / 16 * 16 + b1 % 16 * 4 / 4 = b1 := by omega
    rw [e1, e2, e3]
    rw [a2bAux, if_pos rfl, if_pos (by omega), if_pos (by omega)]
    simp
  | case3 b0 =>
    intro leftc pads acc
    have h0 : b0 < 256 := hx b0 (by simp)
    rw [b64encode]
    rw [a2b_step0 (by omega), a2b_step1 (by omega)]
    have e1 : b0 / 4 * 4 + b0 % 4 * 16 / 16 = b0 := by omega
    have e2 : b0 % 4 * 16 % 16 = 0 := by omega
    rw [e1, e2]
    rw [a2bAux, if_pos rfl, if_pos (by omega), if_neg (by omega)]
    rw [a2bAux, if_pos rfl, if_pos (by omega), if_pos (by omega)]
  | case4 =>
    intro leftc pads acc
    rw [b64encode, a2bAux, if_pos rfl]
    simp

/-- pyB64Decode inverts b64encode on byte lists. -/
lemma pyB64Decode_encode (x : List Nat) (hx : ∀ b ∈ x, b < 256) :
    pyB64Decode (b64encode x) = .ok x := by
  rw [pyB64Decode, a2b_encode x hx]
  simp

/-! ## Gzip member lemmas -/

lemma parseBlocks_cons (f l0 l1 n0 n1 : Nat) (rest : List Nat) :
    parseBlocks (f :: l0 :: l1 :: n0 :: n1 :: rest) =
      (if n0 + 256 * n1 = 65535 - (l0 + 256 * l1) ∧ l0 + 256 * l1 ≤ rest.length then
        if f = 1 then some (rest.take (l0 + 256 * l1), rest.drop (l0 + 256 * l1))
        else if f = 0 then
          (parseBlocks (rest.drop (l0 + 256 * l1))).map
            fun p => (rest.take (l0 + 256 * l1) ++ p.1, p.2)
        else none
      else none) := by
  rw [parseBlocks.eq_def]

/-- Parsing the stored blocks of `x` followed by any trailer recovers `x`
and leaves the trailer. -/
lemma parseBlocks_stored (x : List Nat) : ∀ t : List Nat,
    parseBlocks (storedBlocks x ++ t) = some (x, t) := by
  induction x using storedBlocks.induct with
  | case1 x h =>
    intro t
    rw [storedBlocks.eq_def, dif_pos h]
    simp only [List.cons_append]
    rw [parseBlocks_cons]
    rw [if_pos (by constructor <;> [omega; (simp only [List.length_append]; omega)])]
    rw [if_pos rfl]
    have e : x.length % 256 + 256 * (x.length / 256) = x.length := by omega
    rw [e, List.take_left, List.drop_left]
  | case2 x h ih =>
    intro t
    rw [storedBlocks.eq_def, dif_neg h]
    simp only [List.cons_append, List.append_assoc]
    rw [parseBlocks_cons]
    have hlt : (x.take 65535).length = 65535 := by
      rw [List.length_take]
      omega
    rw [if_pos (by constructor <;> [omega;
      (simp only [List.length_append, hlt]; omega)])]
    rw [if_neg (by omega), if_pos rfl]
    have e : 255 + 256 * 255 = 65535 := by norm_num
    have e1 : ∀ A R : List Nat, A.length = 65535 → (A ++ R).take 65535 = A := by
      intro A R hA
      rw [← hA]
      exact List.take_left A R
    have e2 : ∀ A R : List Nat, A.length = 65535 → (A ++ R).drop 65535 = R := by
      intro A R hA
      rw [← hA]
      exact List.drop_left A R
    rw [e, e1 (x.take 65535) (storedBlocks (x.drop 65535) ++ t) hlt,
      e2 (x.take 65535) (storedBlocks (x.drop 65535) ++ t) hlt, ih]
    show some ((x.take 65535 ++ x.drop 65535, t) : List Nat × List Nat) = some (x, t)
    rw [List.take_append_drop]

lemma le32_bytes (n : Nat) : ∀ b ∈ le32 n, b < 256 := by
  simp only [le32, List.mem_cons, List.not_mem_nil, or_false]
  rintro b (rfl | rfl | rfl | rfl) <;> omega

lemma storedBlocks_bytes {x : List Nat} (hx : ∀ b ∈ x, b < 256) :
    ∀ b ∈ storedBlocks x, b < 256 := by
  induction x using storedBlocks.induct with
  | case1 x h =>
    rw [storedBlocks.eq_def, dif_pos h]
    intro b hb
    simp only [List.mem_cons] at hb
    rcases hb with rfl | rfl | rfl | rfl | rfl | hb
    · omega
    · omega
    · omega
    · omega
    · omega
    · exact hx b hb
  | case2 x h ih =>
    rw [storedBlocks.eq_def, dif_neg h]
    intro b hb
    simp only [List.mem_cons, List.mem_append] at hb
    rcases hb with rfl | rfl | rfl | rfl | rfl | hb | hb
    · omega
    · omega
    · omega
    · omega
    · omega
    · exact hx b (List.take_subset _ _ hb)
    · exact ih (fun b2 hb2 => hx b2 (List.drop_subset _ _ hb2)) b hb

lemma gzipCompress_bytes {x : List Nat} (hx : ∀ b ∈ x, b < 256) :
    ∀ b ∈ gzipCompress x, b < 256 := by
  intro b hb
  rw [gzipCompress] at hb
  simp only [List.mem_append] at hb
  rcases hb with (hb | hb) | hb
  · rw [gzHeaderWhole] at hb
    simp only [List.mem_cons, List.not_mem_nil, or_false] at hb
    omega
  · exact storedBlocks_bytes hx b hb
  · rw [gzTrailer] at hb
    rcases List.mem_append.mp hb with hb | hb
    · exact le32_bytes _ b hb
    · exact le32_bytes _ b hb

lemma dropWhile_id {p : Nat → Bool} {l : List Nat} (h : ∀ c ∈ l, p c = false) :
    l.dropWhile p = l := by
  cases l with
  | nil => rfl
  | cons x t => rw [List.dropWhile_cons, if_neg (by rw [h x (by simp)]; simp)]

lemma pyStrip_id {s : List Nat} (h : ∀ c ∈ s, isWsCode c = false) :
    pyStrip s = s := by
  rw [pyStrip, dropWhile_id h, dropWhile_id (fun c hc => h c (List.mem_reverse.mp hc)),
    List.reverse_reverse]

lemma b64chr_ge (n : Nat) : 43 ≤ b64chr n := by
  rw [b64chr]
  split
  · omega
  split
  · omega
  split
  · omega
  split
  · omega
  · omega

lemma isWsCode_of_ge {c : Nat} (h : 43 ≤ c) : isWsCode c = false := by
  simp only [isWsCode, Bool.or_eq_false_iff, decide_eq_false_iff_not]
  omega

lemma b64encode_no_ws (z : List Nat) : ∀ c ∈ b64encode z, isWsCode c = false := by
  induction z using b64encode.induct with
  | case1 b0 b1 b2 rest ih =>
    rw [b64encode]
    intro c hc
    simp only [List.mem_cons] at hc
    rcases hc with rfl | rfl | rfl | rfl | hc
    · exact isWsCode_of_ge (b64chr_ge _)
    · exact isWsCode_of_ge (b64chr_ge _)
    · exact isWsCode_of_ge (b64chr_ge _)
    · exact isWsCode_of_ge (b64chr_ge _)
    · exact ih c hc
  | case2 b0 b1 =>
    rw [b64encode]
    intro c hc
    simp only [List.mem_cons, List.not_mem_nil, or_false] at hc
    rcases hc with rfl | rfl | rfl | rfl
    · exact isWsCode_of_ge (b64chr_ge _)
    · exact isWsCode_of_ge (b64chr_ge _)
    · exact isWsCode_of_ge (b64chr_ge _)
    · exact isWsCode_of_ge (by omega)
  | case3 b0 =>
    rw [b64encode]
    intro c hc
    simp only [List.mem_cons, List.not_mem_nil, or_false] at hc
    rcases hc with rfl | rfl | rfl | rfl
    · exact isWsCode_of_ge (b64chr_ge _)
    · exact isWsCode_of_ge (b64chr_ge _)
    · exact isWsCode_of_ge (by omega)
    · exact isWsCode_of_ge (by omega)
  | case4 =>
    intro c hc
    exact absurd hc (by rw [b64encode]; exact List.not_mem_nil c)

/-- Decompressing a whole-buffer-compressed member recovers the payload. -/
lemma gzipDecompress_compress (x : List Nat) :
    gzipDecompress (gzipCompress x) = .ok x := by
  rw [gzipCompress, gzipDecompress]
  rw [if_pos ⟨by rw [gzHeaderWhole]; rfl,
    by rw [gzHeaderWhole]; simp only [List.cons_append, List.length_cons]; omega⟩]
  have hdrop : ((gzHeaderWhole ++ (storedBlocks x ++ gzTrailer x)).drop 10) =
      storedBlocks x ++ gzTrailer x := by
    rw [gzHeaderWhole]
    rfl
  rw [← List.append_assoc] at hdrop
  rw [hdrop]
  rw [gzTrailer, parseBlocks_stored]
  simp [le32]

/-- Core round trip of the whole-buffer codec. -/
lemma decode_encode_core (x : List Nat) (hx : ∀ b ∈ x, b < 256) :
    decode_base64_gzip (b64encode (gzipCompress x)) = .ok x := by
  rw [decode_base64_gzip, pyStrip_id (b64encode_no_ws _),
    pyB64Decode_encode _ (gzipCompress_bytes hx)]
  show (gzipDecompress (gzipCompress x)).mapError TseErr.gzip = .ok x
  rw [gzipDecompress_compress]
  rfl

/-- C1: whole-buffer decode inverts whole-buffer encode — gzip-compressing
any byte sequence (including the empty one) into a single member,
base64-encoding it, and passing the text to decode_base64_gzip returns
exactly the original bytes. -/
theorem C1_decode_encode_roundtrip (x : List Nat) (hx : ∀ b ∈ x, b < 256) :
    decode_base64_gzip (encode_base64_gzip x) = .ok x := by
  rw [encode_base64_gzip]
  exact decode_encode_core x hx

/-- C1 witness: the round trip applied to the bytes of "Hello" and to the
empty sequence. -/
theorem C1_decode_encode_roundtrip_witness :
    (∀ b ∈ [72, 101, 108, 108, 111], b < 256) ∧
    decode_base64_gzip (encode_base64_gzip [72, 101, 108, 108, 111]) =
      .ok [72, 101, 108, 108, 111] ∧
    decode_base64_gzip (encode_base64_gzip []) = .ok [] :=
  ⟨by decide, C1_decode_encode_roundtrip [72, 101, 108, 108, 111] (by decide),
    C1_decode_encode_roundtrip [] (by decide)⟩

/-- C6 counterexample: the character code 33 (`!`) is outside the base64
alphabet, yet prepending it to a valid envelope still decodes
successfully — the base64 stage discards it rather than failing — so the
claim that every input containing non-alphabet characters fails with the
base64-stage error is false at this input. -/
theorem C6_counterexample_nonalphabet_ok :
    b64Table 33 = none ∧
    decode_base64_gzip (33 :: encode_base64_gzip [65]) = .ok [65] := by
  refine ⟨by decide, ?_⟩
  have hz : ∀ b ∈ gzipCompress [65], b < 256 := gzipCompress_bytes (by decide)
  rw [encode_base64_gzip, decode_base64_gzip]
  rw [pyStrip_id (by
    intro c hc
    rcases List.mem_cons.mp hc with rfl | hc
    · decide
    · exact b64encode_no_ws _ c hc)]
  rw [pyB64Decode, a2b_skip (by decide) (by decide), a2b_encode _ hz]
  show (gzipDecompress (gzipCompress [65])).mapError TseErr.gzip = .ok [65]
  rw [gzipDecompress_compress]
  rfl

/-! ## Claim C2 — the serializer round trip

The round trip parse(format(T)) = T does not hold for arbitrary in-memory
table sets: a Text cell whose content looks numeric (for instance the
string "5") is re-inferred as a number, text containing tabs or newlines
changes the line structure, a leading empty cell is eaten by the line
strip, and a table whose rows were emptied loses its captured header.  The
claim is therefore corrected to table sets in canonical form, defined
below; the counterexample and the amended theorem follow.

The character-level helpers above model str.strip and str.isdigit on the
ASCII range only, while the real functions are Unicode-aware (str.strip
also removes U+00A0 or U+2000-U+200A, str.isdigit/int also accept Unicode
decimal digits).  So the canonical form additionally confines every piece
of emitted text to the tame range on which the models coincide with
CPython: without that bound a Text cell holding a Unicode digit string, or
a cell ending in Unicode whitespace, would pass the syntactic checks here
and still fail the real round trip. -/

/-- The characters on which the ASCII models of str.strip and str.isdigit
coincide with CPython: ASCII code points excluding the separators
U+001C-U+001F (inside ASCII, Python's str.strip removes exactly isWsChar
plus those four, and str.isdigit holds exactly of the digits 0-9). -/
def tameChar (c : Char) : Bool :=
  c.toNat < 128 && !(28 ≤ c.toNat && c.toNat ≤ 31)

/-- Free of tab and newline characters. -/
def noTabNl (s : List Char) : Bool :=
  !s.contains '\t' && !s.contains '\n'

/-- A cell survives rendering: its text re-infers to the same cell, embeds
no tab or newline, is unchanged by the line strip, and stays in the tame
character range where the strip and digit models are exact. -/
def cellOK (c : Cell) : Bool :=
  decide (inferCell (renderCell c) = c) && noTabNl (renderCell c) &&
    decide (pyStripChars (renderCell c) = renderCell c) &&
    (renderCell c).all tameChar

/-- A row survives rendering under headers `hs`: its key list is exactly
`hs`, all cells are stable, and the first and last rendered cells are
non-empty and the first does not begin a table marker (so the emitted line
neither loses leading fields to the strip nor reads as a marker). -/
def rowOK (hs : List (List Char)) (row : Row) : Bool :=
  decide (row.map Prod.fst = hs) && row.all (fun kv => cellOK kv.2) &&
    (match row with
     | [] => false
     | kv0 :: _ => !(renderCell kv0.2).isEmpty && !isMarker (renderCell kv0.2)) &&
    (match row.reverse with
     | [] => false
     | kvl :: _ => !(renderCell kvl.2).isEmpty)

/-- A header order survives rendering: at least two pairwise-distinct
columns, each name non-empty, tab/newline-free, strip-invariant and tame,
and the first not beginning a marker. -/
def headersOK (hs : List (List Char)) : Bool :=
  2 ≤ hs.length && decide hs.Nodup &&
    hs.all (fun h => !h.isEmpty && noTabNl h && decide (pyStripChars h = h) &&
      h.all tameChar) &&
    (match hs with
     | [] => false
     | h0 :: _ => !isMarker h0)

/-- A table name survives the marker line: no newline, the marker line is
strip-invariant, and the name is tame. -/
def nameOK (n : List Char) : Bool :=
  !n.contains '\n' &&
    decide (pyStripChars ('#' :: '#' :: '#' :: n) = '#' :: '#' :: '#' :: n) &&
    n.all tameChar

/-- Canonical form of a table set with its captured header orders: the two
association lists are aligned name-for-name, names are pairwise distinct
and marker-safe, every table is non-empty with a well-formed header order,
every row survives rendering under its table's headers, and all emitted
text lies in the tame character range on which the ASCII strip/digit
models agree with CPython's str.strip/str.isdigit/int/float. -/
def canonicalTH : List (List Char × List Row) →
    List (List Char × List (List Char)) → Bool
  | [], [] => true
  | (n1, rows) :: T, (n2, hs) :: H =>
      decide (n1 = n2) && nameOK n1 && headersOK hs && !rows.isEmpty &&
        rows.all (rowOK hs) && !((T.map Prod.fst).contains n1) &&
        !((H.map Prod.fst).contains n1) && canonicalTH T H
  | _, _ => false

/-- Join lines with a newline after every line. -/
def unlines (ls : List (List Char)) : List Char :=
  (ls.map (· ++ ['\n'])).flatten

/-- The lines save_as_yls emits for a canonical table set: per table, the
marker line, the header line in captured order, one line per row, and a
blank line. -/
def linesOf : List (List Char × List Row) →
    List (List Char × List (List Char)) → List (List Char)
  | [], _ => []
  | _, [] => []
  | (n, rows) :: T, (_, hs) :: H =>
      (('#' :: '#' :: '#' :: n) :: joinTab hs ::
        (rows.map (renderRow hs) ++ [[]])) ++ linesOf T H

/-! ## Splitting, stripping and joining lemmas -/

lemma splitOn1_sep_cons (sep : Char) (rest : List Char) :
    splitOn1 sep (sep :: rest) = [] :: splitOn1 sep rest := by
  rw [splitOn1, if_pos rfl]

lemma splitOn1_ne_nil (sep : Char) (l : List Char) : splitOn1 sep l ≠ [] := by
  induction l with
  | nil => simp [splitOn1]
  | cons c t ih =>
    rw [splitOn1]
    by_cases hc : c = sep
    · rw [if_pos hc]
      simp
    · rw [if_neg hc]
      cases h : splitOn1 sep t with
      | nil => simp
      | cons p ps => simp

lemma not_contains_cons {c x : Char} {t : List Char}
    (h : ¬((x :: t).contains c = true)) : ¬(x = c) ∧ ¬(t.contains c = true) := by
  constructor
  · intro hx
    exact h (by simp [List.contains_cons, hx])
  · intro ht
    exact h (by
      simp only [List.contains_cons, Bool.or_eq_true]
      exact Or.inr ht)

lemma splitOn1_append (sep : Char) (l rest : List Char)
    (hl : ¬(l.contains sep = true)) :
    splitOn1 sep (l ++ sep :: rest) = l :: splitOn1 sep rest := by
  induction l with
  | nil => rw [List.nil_append, splitOn1_sep_cons]
  | cons c t ih =>
    obtain ⟨hc, ht⟩ := not_contains_cons hl
    rw [List.cons_append, splitOn1, if_neg hc, ih ht]

lemma splitOn1_no_sep (sep : Char) (l : List Char)
    (h : ¬(l.contains sep = true)) : splitOn1 sep l = [l] := by
  induction l with
  | nil => rfl
  | cons c t ih =>
    obtain ⟨hc, ht⟩ := not_contains_cons h
    rw [splitOn1, if_neg hc, ih ht]

lemma unlines_cons (l : List Char) (ls : List (List Char)) :
    unlines (l :: ls) = l ++ '\n' :: unlines ls := by
  rw [unlines, List.map_cons, List.flatten_cons, unlines]
  simp

lemma splitOn1_unlines (ls : List (List Char))
    (h : ∀ l ∈ ls, ¬(l.contains '\n' = true)) :
    splitOn1 '\n' (unlines ls) = ls ++ [[]] := by
  induction ls with
  | nil => rfl
  | cons l ls ih =>
    rw [unlines_cons, splitOn1_append '\n' l _ (h l (by simp)),
      ih (fun l2 hl2 => h l2 (by simp [hl2]))]
    rfl

lemma head?_dropWhile {p : Char → Bool} {l : List Char} {c : Char}
    (h : (l.dropWhile p).head? = some c) : p c = false := by
  induction l with
  | nil => simp at h
  | cons x t ih =>
    rw [List.dropWhile_cons] at h
    by_cases hx : p x
    · rw [if_pos hx] at h
      exact ih h
    · rw [if_neg hx] at h
      simp only [List.head?_cons, Option.some_inj] at h
      rw [← h]
      simpa using hx

lemma length_dropWhile_le (p : Char → Bool) (l : List Char) :
    (l.dropWhile p).length ≤ l.length := by
  induction l with
  | nil => simp
  | cons x t ih =>
    rw [List.dropWhile_cons]
    by_cases hx : p x
    · rw [if_pos hx]
      simp only [List.length_cons]
      omega
    · rw [if_neg hx]

lemma pyStripChars_id_of {l : List Char}
    (h1 : ∀ c, l.head? = some c → isWsChar c = false)
    (h2 : ∀ c, l.getLast? = some c → isWsChar c = false) :
    pyStripChars l = l := by
  rw [pyStripChars]
  have e1 : l.dropWhile isWsChar = l := by
    cases l with
    | nil => rfl
    | cons x t =>
      rw [List.dropWhile_cons, if_neg (by rw [h1 x rfl]; simp)]
  rw [e1]
  have e2 : l.reverse.dropWhile isWsChar = l.reverse := by
    cases hr : l.reverse with
    | nil => rfl
    | cons x t =>
      have hx : l.getLast? = some x := by
        rw [← List.head?_reverse, hr, List.head?_cons]
      rw [List.dropWhile_cons, if_neg (by rw [h2 x hx]; simp)]
  rw [e2, List.reverse_reverse]

lemma strip_inv_head {r : List Char} (hr : pyStripChars r = r) :
    ∀ c, r.head? = some c → isWsChar c = false := by
  intro c hc
  obtain ⟨t, rfl⟩ : ∃ t, r = c :: t := by
    cases r with
    | nil => simp at hc
    | cons x t => exact ⟨t, by rw [List.head?_cons, Option.some_inj] at hc; rw [hc]⟩
  by_contra hws
  rw [Bool.not_eq_false] at hws
  have hlen : (pyStripChars (c :: t)).length ≤ t.length := by
    rw [pyStripChars]
    have e1 : (c :: t).dropWhile isWsChar = t.dropWhile isWsChar := by
      rw [List.dropWhile_cons, if_pos hws]
    rw [e1, List.length_reverse]
    calc ((t.dropWhile isWsChar).reverse.dropWhile isWsChar).length
        ≤ (t.dropWhile isWsChar).reverse.length := length_dropWhile_le _ _
      _ = (t.dropWhile isWsChar).length := List.length_reverse _
      _ ≤ t.length := length_dropWhile_le _ _
  rw [hr] at hlen
  simp at hlen

lemma strip_inv_last {r : List Char} (hr : pyStripChars r = r) :
    ∀ c, r.getLast? = some c → isWsChar c = false := by
  intro c hc
  have hrev : (r.dropWhile isWsChar).reverse.dropWhile isWsChar = r.reverse := by
    have := congrArg List.reverse hr
    rw [pyStripChars, List.reverse_reverse] at this
    exact this
  have hhead : r.reverse.head? = some c := by
    rw [List.head?_reverse]
    exact hc
  rw [← hrev] at hhead
  exact head?_dropWhile hhead

lemma joinTab_two (p q : List Char) (rest : List (List Char)) :
    joinTab (p :: q :: rest) = p ++ '\t' :: joinTab (q :: rest) := rfl

lemma joinTab_head? {p : List Char} (rest : List (List Char)) (hp : p ≠ []) :
    (joinTab (p :: rest)).head? = p.head? := by
  cases rest with
  | nil => rfl
  | cons q rs =>
    rw [joinTab_two]
    cases p with
    | nil => exact absurd rfl hp
    | cons c t => rfl

lemma joinTab_getLast? : ∀ (rs : List (List Char)) (last : List Char),
    rs.getLast? = some last → last ≠ [] →
    (joinTab rs).getLast? = last.getLast? := by
  intro rs
  induction rs with
  | nil => intro last h _; simp at h
  | cons p rest ih =>
    intro last h hlne
    cases rest with
    | nil =>
      simp only [List.getLast?_singleton, Option.some_inj] at h
      rw [joinTab, h]
    | cons q rs2 =>
      have h2 : (q :: rs2).getLast? = some last := by
        rw [← h]
        rw [List.getLast?_cons_cons]
      rw [joinTab_two]
      have hjr := ih last h2 hlne
      have hne2 : joinTab (q :: rs2) ≠ [] := by
        intro hnil
        rw [hnil] at hjr
        cases hlast : last.getLast? with
        | none => exact hlne (by simpa using hlast)
        | some c => rw [hlast] at hjr; simp at hjr
      rw [List.getLast?_append_of_ne_nil _ (by simp [hne2])]
      cases hjt : joinTab (q :: rs2) with
      | nil => exact absurd hjt hne2
      | cons a b =>
        rw [← hjt, ← hjr]
        rw [hjt]
        rw [List.getLast?_cons_cons]

/-! ## Row rendering and rebuilding lemmas -/

lemma dictGet_head {α : Type} (k : List Char) (v : α) (rest : List ((List Char) × α)) :
    dictGet ((k, v) :: rest) k = some v := by
  rw [dictGet, if_pos rfl]

lemma dictGet_tail {α : Type} {k k2 : List Char} (v : α)
    (rest : List ((List Char) × α)) (h : ¬(k = k2)) :
    dictGet ((k, v) :: rest) k2 = dictGet rest k2 := by
  rw [dictGet, if_neg h]

/-- Rendering a row whose key list is nodup through per-column lookups
gives exactly its cells' renders, in key order. -/
lemma renderFields_positional : ∀ (row : Row), (row.map Prod.fst).Nodup →
    (row.map Prod.fst).map (renderField row) = row.map (fun kv => renderCell kv.2) := by
  intro row
  induction row with
  | nil => intro _; rfl
  | cons kv row ih =>
    intro hnd
    rw [List.map_cons, List.nodup_cons] at hnd
    rw [List.map_cons, List.map_cons, List.map_cons]
    congr 1
    · rw [renderField]
      cases kv with
      | mk k c => rw [dictGet_head]; rfl
    · rw [← ih hnd.2]
      refine List.map_congr_left fun h hh => ?_
      rw [renderField, renderField]
      cases kv with
      | mk k c =>
        rw [dictGet_tail c row (fun hk => hnd.1 (by rw [hk]; exact hh))]

/-- Rebuilding a rendered row recovers the row, when headers are nodup,
the row's keys are exactly the headers, and each cell re-infers. -/
lemma buildRow_inv {hs : List (List Char)} {row : Row} (hnd : hs.Nodup)
    (hkeys : row.map Prod.fst = hs)
    (hcells : ∀ kv ∈ row, inferCell (renderCell kv.2) = kv.2) :
    buildRow hs (row.map fun kv => renderCell kv.2) = row := by
  have hlen : (row.map fun kv => renderCell kv.2).length = hs.length := by
    rw [List.length_map, ← hkeys, List.length_map]
  rw [buildRow_eq_zip hs _ (le_of_eq hlen) hnd]
  rw [show hs.length - (row.map fun kv => renderCell kv.2).length = 0 by omega]
  simp only [List.replicate, List.append_nil]
  rw [← hkeys, List.zip_map', List.map_map]
  have hid : ∀ kv ∈ row,
      ((fun hp : (List Char) × (List Char) => (hp.1, inferCell hp.2)) ∘
        fun kv : (List Char) × Cell => (kv.1, renderCell kv.2)) kv = id kv :=
    fun kv hkv => by simp [Function.comp, hcells kv hkv]
  rw [List.map_congr_left hid, List.map_id]

lemma appendRow_cons (k : List Char) (v : List Row)
    (rest : List (List Char × List Row)) (name : List Char) (row : Row) :
    appendRow ((k, v) :: rest) name row =
      if k = name then .ok ((k, v ++ [row]) :: rest)
      else (appendRow rest name row).map fun r => (k, v) :: r := rfl

/-- Appending a row to the entry at the end of the tables dict. -/
lemma appendRow_fresh : ∀ (D : List (List Char × List Row)) (name : List Char)
    (rows : List Row) (row : Row), (∀ q ∈ D, ¬(q.1 = name)) →
    appendRow (D ++ [(name, rows)]) name row = .ok (D ++ [(name, rows ++ [row])]) := by
  intro D
  induction D with
  | nil =>
    intro name rows row _
    rw [List.nil_append, appendRow_cons, if_pos rfl]
    rfl
  | cons q D ih =>
    intro name rows row hfresh
    cases q with
    | mk k v =>
      rw [List.cons_append, appendRow_cons]
      rw [if_neg (hfresh (k, v) (by simp))]
      rw [ih name rows row (fun q2 hq2 => hfresh q2 (by simp [hq2]))]
      rfl

/-! ## Per-line parsing lemmas for formatted output -/

lemma splitOn1_joinTab : ∀ (rs : List (List Char)), rs ≠ [] →
    (∀ r ∈ rs, ¬(r.contains '\t' = true)) → splitOn1 '\t' (joinTab rs) = rs := by
  intro rs
  induction rs with
  | nil => intro h; exact absurd rfl h
  | cons p rest ih =>
    intro _ hall
    cases rest with
    | nil => exact splitOn1_no_sep '\t' p (hall p (by simp))
    | cons q rs2 =>
      rw [joinTab_two, splitOn1_append '\t' p _ (hall p (by simp)),
        ih (by simp) (fun r hr => hall r (by simp [hr]))]

lemma isMarker_false_of_take {l : List Char} (h : ¬(l.take 3 = ['#', '#', '#'])) :
    isMarker l = false := by
  simp only [isMarker, decide_eq_false_iff_not]
  exact h

lemma joinTab_not_marker {r0 : List Char} {rest : List (List Char)}
    (h : isMarker r0 = false) : isMarker (joinTab (r0 :: rest)) = false := by
  cases rest with
  | nil => exact h
  | cons q rs =>
    rw [joinTab_two]
    simp only [isMarker, decide_eq_false_iff_not] at h
    apply isMarker_false_of_take
    cases r0 with
    | nil => simp
    | cons a r0' =>
      cases r0' with
      | nil => simp
      | cons b r0'' =>
        cases r0'' with
        | nil => simp
        | cons c r0''' =>
          simpa using h

lemma parseLine_blank (st : PSt) : parseLine st [] = .ok st := rfl

lemma parseLine_marker {D : List (List Char × List Row)}
    {E : List (List Char × List (List Char))} {c : Option (List Char)}
    {chs : List (List Char)} {name : List Char}
    (hfresh : ∀ q ∈ D, ¬(q.1 = name)) (hN : nameOK name = true) :
    parseLine ⟨D, E, c, chs⟩ ('#' :: '#' :: '#' :: name) =
      .ok ⟨D ++ [(name, [])], E, some name, []⟩ := by
  simp only [nameOK, Bool.and_eq_true, decide_eq_true_eq, Bool.not_eq_true'] at hN
  rw [parseLine]
  simp only [hN.1.2]
  rw [if_neg (by simp), if_pos (by simp [isMarker])]
  rw [List.drop_succ_cons, List.drop_succ_cons, List.drop_succ_cons, List.drop_zero]
  rw [dictInsert_fresh D name [] hfresh]

lemma headersOK_spec {hs : List (List Char)} (h : headersOK hs = true) :
    2 ≤ hs.length ∧ hs.Nodup ∧
      (∀ x ∈ hs, ¬(x = []) ∧ ¬(x.contains '\t' = true) ∧ ¬(x.contains '\n' = true) ∧
        pyStripChars x = x) ∧
      (∃ h0 rest, hs = h0 :: rest ∧ isMarker h0 = false) := by
  simp only [headersOK, Bool.and_eq_true, decide_eq_true_eq, List.all_eq_true,
    Bool.not_eq_true', noTabNl, List.isEmpty_iff] at h
  obtain ⟨⟨⟨hlen, hnd⟩, hall⟩, hm⟩ := h
  have hmk : ∃ h0 rest, hs = h0 :: rest ∧ isMarker h0 = false := by
    clear hall hnd
    revert hm hlen
    cases hs with
    | nil => intro _ hlen; simp at hlen
    | cons h0 rest =>
      intro hm _
      exact ⟨h0, rest, rfl, by simpa using hm⟩
  refine ⟨hlen, hnd, fun x hx => ?_, hmk⟩
  obtain ⟨⟨⟨he, ht, hn⟩, hstr⟩, _⟩ := hall x hx
  exact ⟨by simpa using he, fun hc => Bool.false_ne_true (ht ▸ hc),
    fun hc => Bool.false_ne_true (hn ▸ hc), hstr⟩

lemma getLast?_mem2 {α : Type} {l : List α} {a : α} (h : l.getLast? = some a) :
    a ∈ l := by
  have hh : l.reverse.head? = some a := by rw [List.head?_reverse]; exact h
  cases hr : l.reverse with
  | nil => rw [hr] at hh; simp at hh
  | cons x t =>
    rw [hr, List.head?_cons, Option.some_inj] at hh
    have : a ∈ l.reverse := by rw [hr, hh]; simp
    exact List.mem_reverse.mp this

lemma joinTab_strip_inv {rs : List (List Char)} {r0 last : List Char}
    (hcons : rs.head? = some r0) (hlast : rs.getLast? = some last)
    (h0ne : r0 ≠ []) (hlne : last ≠ [])
    (hstr : ∀ r ∈ rs, pyStripChars r = r) :
    pyStripChars (joinTab rs) = joinTab rs := by
  obtain ⟨rest, rfl⟩ : ∃ rest, rs = r0 :: rest := by
    cases rs with
    | nil => simp at hcons
    | cons a b =>
      rw [List.head?_cons, Option.some_inj] at hcons
      exact ⟨b, by rw [hcons]⟩
  apply pyStripChars_id_of
  · intro c hc
    rw [joinTab_head? rest h0ne] at hc
    exact strip_inv_head (hstr r0 (by simp)) c hc
  · intro c hc
    rw [joinTab_getLast? (r0 :: rest) last hlast hlne] at hc
    exact strip_inv_last (hstr last (getLast?_mem2 hlast)) c hc

lemma joinTab_ne_nil {r0 : List Char} {rest : List (List Char)} (h0ne : r0 ≠ []) :
    joinTab (r0 :: rest) ≠ [] := by
  intro hnil
  have := joinTab_head? rest h0ne
  rw [hnil] at this
  cases r0 with
  | nil => exact h0ne rfl
  | cons a b => simp at this

lemma parseLine_header {D : List (List Char × List Row)}
    {E : List (List Char × List (List Char))} {name : List Char}
    {hs : List (List Char)} (hfreshE : ∀ q ∈ E, ¬(q.1 = name))
    (hH : headersOK hs = true) :
    parseLine ⟨D, E, some name, []⟩ (joinTab hs) =
      .ok ⟨D, E ++ [(name, hs)], some name, hs⟩ := by
  obtain ⟨hlen, hnd, hall, h0, rest, rfl, hm⟩ := headersOK_spec hH
  have h0ne : ¬(h0 = []) := (hall h0 (by simp)).1
  have hlast : ∃ last, (h0 :: rest).getLast? = some last := by
    cases hgl : (h0 :: rest).getLast? with
    | none => simp at hgl
    | some l => exact ⟨l, rfl⟩
  obtain ⟨last, hl⟩ := hlast
  have hlne : ¬(last = []) := (hall last (getLast?_mem2 hl)).1
  have hstrip : pyStripChars (joinTab (h0 :: rest)) = joinTab (h0 :: rest) :=
    joinTab_strip_inv (List.head?_cons) hl h0ne hlne
      (fun r hr => (hall r hr).2.2.2)
  rw [parseLine]
  simp only [hstrip]
  rw [if_neg (by simp [joinTab_ne_nil h0ne]), if_neg (by simp [joinTab_not_marker hm])]
  rw [splitOn1_joinTab (h0 :: rest) (by simp) (fun r hr => (hall r hr).2.1)]
  rw [if_pos ⟨rfl, hlen⟩]
  rw [dictInsert_fresh E name (h0 :: rest) hfreshE]

lemma getLast?_map {α β : Type} (f : α → β) (l : List α) :
    (l.map f).getLast? = (l.getLast?).map f := by
  rw [← List.head?_reverse, ← List.map_reverse, List.head?_map, List.head?_reverse]

lemma cellOK_spec {c : Cell} (h : cellOK c = true) :
    inferCell (renderCell c) = c ∧ ¬((renderCell c).contains '\t' = true) ∧
      ¬((renderCell c).contains '\n' = true) ∧
      pyStripChars (renderCell c) = renderCell c := by
  simp only [cellOK, noTabNl, Bool.and_eq_true, decide_eq_true_eq,
    Bool.not_eq_true'] at h
  obtain ⟨⟨⟨hi, ht, hn⟩, hstr⟩, _⟩ := h
  exact ⟨hi, fun hc => Bool.false_ne_true (ht ▸ hc),
    fun hc => Bool.false_ne_true (hn ▸ hc), hstr⟩

lemma rowOK_spec {hs : List (List Char)} {row : Row} (h : rowOK hs row = true) :
    row.map Prod.fst = hs ∧ (∀ kv ∈ row, cellOK kv.2 = true) ∧
      (∃ kv0 rest, row = kv0 :: rest ∧ ¬(renderCell kv0.2 = []) ∧
        isMarker (renderCell kv0.2) = false) ∧
      (∃ kvl, row.getLast? = some kvl ∧ ¬(renderCell kvl.2 = [])) := by
  simp only [rowOK, Bool.and_eq_true, decide_eq_true_eq, List.all_eq_true] at h
  obtain ⟨⟨⟨hkeys, hcells⟩, hfirst⟩, hlast⟩ := h
  have hf : ∃ kv0 rest, row = kv0 :: rest ∧ ¬(renderCell kv0.2 = []) ∧
      isMarker (renderCell kv0.2) = false := by
    clear hcells hlast
    revert hfirst hkeys
    cases row with
    | nil => intro hfirst _; simp at hfirst
    | cons kv0 rest =>
      intro hfirst _
      simp only [Bool.and_eq_true, Bool.not_eq_true'] at hfirst
      exact ⟨kv0, rest, rfl, fun hc => by rw [hc] at hfirst; simp at hfirst,
        hfirst.2⟩
  have hl : ∃ kvl, row.getLast? = some kvl ∧ ¬(renderCell kvl.2 = []) := by
    clear hcells hf hkeys hfirst
    cases hr : row.reverse with
    | nil =>
      rw [hr] at hlast
      simp at hlast
    | cons kvl rest =>
      rw [hr] at hlast
      simp only [Bool.not_eq_true', List.isEmpty_iff] at hlast
      refine ⟨kvl, ?_, by simpa using hlast⟩
      rw [← List.head?_reverse, hr, List.head?_cons]
  exact ⟨hkeys, hcells, hf, hl⟩

/-- Processing a rendered canonical row appends exactly that row to the
current (final) table. -/
lemma parseLine_row {D : List (List Char × List Row)}
    {E : List (List Char × List (List Char))} {name : List Char}
    {hs : List (List Char)} {racc : List Row} {row : Row}
    (hfresh : ∀ q ∈ D, ¬(q.1 = name))
    (hH : headersOK hs = true) (hR : rowOK hs row = true) :
    parseLine ⟨D ++ [(name, racc)], E, some name, hs⟩ (renderRow hs row) =
      .ok ⟨D ++ [(name, racc ++ [row])], E, some name, hs⟩ := by
  obtain ⟨hlen2, hnd, hallh, h0, rest0, hhs0, _⟩ := headersOK_spec hH
  obtain ⟨hkeys, hcells, ⟨kv0, rrest, hrow, h0ne, h0nm⟩, kvl, hgl, hlne⟩ := rowOK_spec hR
  have hrnd : hs.map (renderField row) = row.map fun kv => renderCell kv.2 := by
    rw [← hkeys]
    exact renderFields_positional row (by rw [hkeys]; exact hnd)
  have hline : renderRow hs row = joinTab (row.map fun kv => renderCell kv.2) := by
    rw [renderRow, hrnd]
  have hstr_all : ∀ r ∈ row.map fun kv => renderCell kv.2, pyStripChars r = r := by
    intro r hr
    obtain ⟨kv, hkv, rfl⟩ := List.mem_map.mp hr
    exact (cellOK_spec (hcells kv hkv)).2.2.2
  have htab_all : ∀ r ∈ row.map fun kv => renderCell kv.2,
      ¬(r.contains '\t' = true) := by
    intro r hr
    obtain ⟨kv, hkv, rfl⟩ := List.mem_map.mp hr
    exact (cellOK_spec (hcells kv hkv)).2.1
  have hhead : (row.map fun kv => renderCell kv.2).head? = some (renderCell kv0.2) := by
    rw [hrow, List.map_cons, List.head?_cons]
  have hglast : (row.map fun kv => renderCell kv.2).getLast? =
      some (renderCell kvl.2) := by
    rw [getLast?_map, hgl]
    rfl
  have hstrip : pyStripChars (joinTab (row.map fun kv => renderCell kv.2)) =
      joinTab (row.map fun kv => renderCell kv.2) :=
    joinTab_strip_inv hhead hglast h0ne hlne hstr_all
  have hconsform : (row.map fun kv => renderCell kv.2) =
      renderCell kv0.2 :: (rrest.map fun kv => renderCell kv.2) := by
    rw [hrow, List.map_cons]
  have hnempty : joinTab (row.map fun kv => renderCell kv.2) ≠ [] := by
    rw [hconsform]
    exact joinTab_ne_nil h0ne
  have hnmark : isMarker (joinTab (row.map fun kv => renderCell kv.2)) = false := by
    rw [hconsform]
    exact joinTab_not_marker h0nm
  have hlensr : (row.map fun kv => renderCell kv.2).length = hs.length := by
    rw [List.length_map, ← hkeys, List.length_map]
  rw [hline, parseLine]
  simp only [hstrip]
  rw [if_neg (by simp [hnempty]), if_neg (by simp [hnmark])]
  rw [splitOn1_joinTab _ (by rw [hconsform]; simp) htab_all]
  rw [if_neg (fun hcontra => by
    rw [hhs0] at hcontra
    simp at hcontra)]
  rw [if_pos ⟨by rw [hhs0]; simp, le_of_eq hlensr⟩]
  rw [buildRow_inv hnd hkeys (fun kv hkv => (cellOK_spec (hcells kv hkv)).1)]
  rw [appendRow_fresh D name racc row hfresh]
  rfl

/-! ## Format output as lines -/

lemma containsL_iff {l : List (List Char)} {c : List Char} :
    l.contains c = true ↔ c ∈ l := by
  induction l with
  | nil => simp
  | cons x t ih => simp [List.contains_cons, ih]

lemma canonicalTH_cons {n1 n2 : List Char} {rows : List Row}
    {T : List (List Char × List Row)} {hs : List (List Char)}
    {H : List (List Char × List (List Char))}
    (h : canonicalTH ((n1, rows) :: T) ((n2, hs) :: H) = true) :
    n1 = n2 ∧ nameOK n1 = true ∧ headersOK hs = true ∧ rows ≠ [] ∧
      (∀ row ∈ rows, rowOK hs row = true) ∧
      (∀ q ∈ T, ¬(q.1 = n1)) ∧ (∀ q ∈ H, ¬(q.1 = n1)) ∧
      canonicalTH T H = true := by
  simp only [canonicalTH, Bool.and_eq_true, decide_eq_true_eq, Bool.not_eq_true',
    List.all_eq_true, List.isEmpty_iff] at h
  obtain ⟨⟨⟨⟨⟨⟨⟨h12, hname⟩, hhs⟩, hrne⟩, hrows⟩, hfT⟩, hfH⟩, hrec⟩ := h
  refine ⟨h12, hname, hhs, ?_, hrows, ?_, ?_, hrec⟩
  · intro hnil
    rw [hnil] at hrne
    simp at hrne
  · intro q hq hq1
    have hm : n1 ∈ T.map Prod.fst := by
      rw [← hq1]
      exact List.mem_map_of_mem Prod.fst hq
    rw [← containsL_iff] at hm
    rw [hm] at hfT
    simp at hfT
  · intro q hq hq1
    have hm : n1 ∈ H.map Prod.fst := by
      rw [← hq1]
      exact List.mem_map_of_mem Prod.fst hq
    rw [← containsL_iff] at hm
    rw [hm] at hfH
    simp at hfH

lemma unlines_append (a b : List (List Char)) :
    unlines (a ++ b) = unlines a ++ unlines b := by
  rw [unlines, unlines, unlines, List.map_append, List.flatten_append]

lemma format_skip_header (T : List (List Char × List Row)) (k : List Char)
    (v : List (List Char)) (H : List (List Char × List (List Char)))
    (hfresh : ∀ q ∈ T, ¬(q.1 = k)) :
    save_as_yls_text T ((k, v) :: H) = save_as_yls_text T H := by
  rw [save_as_yls_text, save_as_yls_text]
  congr 1
  refine List.map_congr_left fun nt hnt => ?_
  have : dictGet ((k, v) :: H) nt.1 = dictGet H nt.1 :=
    dictGet_tail v H (fun hk => hfresh nt hnt hk.symm)
  rw [this]

/-- On canonical inputs, the formatted text is the newline-joining of the
expected lines. -/
lemma format_eq_unlines : ∀ (T : List (List Char × List Row))
    (H : List (List Char × List (List Char))), canonicalTH T H = true →
    save_as_yls_text T H = unlines (linesOf T H) := by
  intro T
  induction T with
  | nil =>
    intro H hc
    cases H with
    | nil => rfl
    | cons q H2 => simp [canonicalTH] at hc
  | cons nt T ih =>
    intro H hc
    cases H with
    | nil =>
      cases nt with
      | mk n1 rows => simp [canonicalTH] at hc
    | cons qh H2 =>
      cases nt with
      | mk n1 rows =>
        cases qh with
        | mk n2 hs =>
          obtain ⟨h12, hname, hH, hrne, hrows, hfT, hfH, hrec⟩ := canonicalTH_cons hc
          subst h12
          obtain ⟨r0, rows2, rfl⟩ : ∃ r0 rows2, rows = r0 :: rows2 := by
            cases rows with
            | nil => exact absurd rfl hrne
            | cons a b => exact ⟨a, b, rfl⟩
          rw [linesOf, unlines_append]
          rw [save_as_yls_text, List.map_cons, List.flatten_cons]
          have hskip : save_as_yls_text T ((n1, hs) :: H2) = save_as_yls_text T H2 := by
            rw [format_skip_header T n1 hs H2 hfT]
          have htail : (T.map fun nt =>
              ('#' :: '#' :: '#' :: nt.1) ++ '\n' ::
                ((match nt.2 with
                  | [] => []
                  | r0 :: _ =>
                    ((joinTab ((dictGet ((n1, hs) :: H2) nt.1).getD
                        (r0.map Prod.fst)) ++ ['\n']) ++
                      (nt.2.map fun row => renderRow ((dictGet ((n1, hs) :: H2)
                        nt.1).getD (r0.map Prod.fst)) row ++ ['\n']).flatten)) ++
                  ['\n'])).flatten = unlines (linesOf T H2) := by
            have := hskip
            rw [save_as_yls_text] at this
            rw [this]
            exact ih H2 hrec
          rw [htail]
          congr 1
          rw [dictGet_head]
          simp only [Option.getD_some, unlines_cons, unlines_cons]
          rw [unlines_append, unlines_cons]
          simp only [unlines, List.map_map, List.flatten_nil, List.map_nil]
          simp [List.append_assoc, Function.comp_def]

/-! ## Folding the parser over the emitted lines -/

lemma foldlM_cons_ok {st st2 : PSt} {l : List Char} {ls : List (List Char)}
    (h : parseLine st l = .ok st2) :
    (l :: ls).foldlM parseLine st = ls.foldlM parseLine st2 := by
  rw [List.foldlM_cons, h]
  rfl

lemma foldlM_append_ok {st st2 : PSt} {l1 l2 : List (List Char)}
    (h : l1.foldlM parseLine st = .ok st2) :
    (l1 ++ l2).foldlM parseLine st = l2.foldlM parseLine st2 := by
  rw [List.foldlM_append, h]
  rfl

lemma mem_joinTab {c : Char} : ∀ (rs : List (List Char)), c ∈ joinTab rs →
    c = '\t' ∨ ∃ r ∈ rs, c ∈ r
  | [], h => by simp [joinTab] at h
  | [p], h => .inr ⟨p, by simp, h⟩
  | p :: q :: rest, h => by
    rw [show joinTab (p :: q :: rest) = p ++ '\t' :: joinTab (q :: rest) from rfl]
      at h
    rcases List.mem_append.mp h with h1 | h2
    · exact .inr ⟨p, by simp, h1⟩
    · rcases List.mem_cons.mp h2 with h3 | h4
      · exact .inl h3
      · rcases mem_joinTab (q :: rest) h4 with h5 | ⟨r, hr, hcr⟩
        · exact .inl h5
        · exact .inr ⟨r, by simp [hr], hcr⟩

/-- Every line save_as_yls emits for a canonical table set is newline-free,
so splitting the joined text on newlines recovers exactly the lines. -/
lemma linesOf_no_nl : ∀ (T : List (List Char × List Row))
    (H : List (List Char × List (List Char))), canonicalTH T H = true →
    ∀ l ∈ linesOf T H, ¬(l.contains '\n' = true) := by
  intro T
  induction T with
  | nil =>
    intro H hc l hl
    cases H with
    | nil => simp [linesOf] at hl
    | cons q H2 => simp [canonicalTH] at hc
  | cons nt T ih =>
    intro H hc l hl
    cases H with
    | nil =>
      cases nt with
      | mk n1 rows => simp [canonicalTH] at hc
    | cons qh H2 =>
      cases nt with
      | mk n1 rows =>
        cases qh with
        | mk n2 hs =>
          obtain ⟨h12, hname, hH, hrne, hrows, hfT, hfH, hrec⟩ := canonicalTH_cons hc
          obtain ⟨hlen2, hnd, hall, _⟩ := headersOK_spec hH
          rw [linesOf] at hl
          rcases List.mem_append.mp hl with hsec | hrest
          · rcases List.mem_cons.mp hsec with rfl | hsec2
            · -- marker line
              simp only [nameOK, Bool.and_eq_true, decide_eq_true_eq,
                Bool.not_eq_true'] at hname
              intro hcon
              rw [contains_iff] at hcon
              rcases List.mem_cons.mp hcon with h1 | h1
              · exact absurd h1 (by decide)
              rcases List.mem_cons.mp h1 with h2 | h2
              · exact absurd h2 (by decide)
              rcases List.mem_cons.mp h2 with h3 | h3
              · exact absurd h3 (by decide)
              · rw [← contains_iff] at h3
                rw [hname.1.1] at h3
                exact Bool.false_ne_true h3
            rcases List.mem_cons.mp hsec2 with rfl | hsec3
            · -- header line
              intro hcon
              rw [contains_iff] at hcon
              rcases mem_joinTab hs hcon with h1 | ⟨r, hr, hcr⟩
              · exact absurd h1 (by decide)
              · exact (hall r hr).2.2.1 (contains_iff.mpr hcr)
            rcases List.mem_append.mp hsec3 with hrow | hblank
            · -- data line
              obtain ⟨row, hrowm, rfl⟩ := List.mem_map.mp hrow
              obtain ⟨hkeys, hcells, _⟩ := rowOK_spec (hrows row hrowm)
              have hrnd : hs.map (renderField row) =
                  row.map fun kv => renderCell kv.2 := by
                rw [← hkeys]
                exact renderFields_positional row (by rw [hkeys]; exact hnd)
              intro hcon
              rw [renderRow, hrnd, contains_iff] at hcon
              rcases mem_joinTab _ hcon with h1 | ⟨r, hr, hcr⟩
              · exact absurd h1 (by decide)
              · obtain ⟨kv, hkv, rfl⟩ := List.mem_map.mp hr
                exact (cellOK_spec (hcells kv hkv)).2.2.1 (contains_iff.mpr hcr)
            · -- blank line
              rw [List.mem_singleton.mp hblank]
              simp
          · exact ih H2 hrec l hrest

/-- Folding the parser over the rendered data lines of one table appends
the rows one by one to that table's entry. -/
lemma parse_rows : ∀ (rs : List Row) (D : List (List Char × List Row))
    (E : List (List Char × List (List Char))) (name : List Char)
    (hs : List (List Char)) (racc : List Row),
    (∀ q ∈ D, ¬(q.1 = name)) → headersOK hs = true →
    (∀ r ∈ rs, rowOK hs r = true) →
    (rs.map (renderRow hs)).foldlM parseLine
        (⟨D ++ [(name, racc)], E, some name, hs⟩ : PSt) =
      .ok ⟨D ++ [(name, racc ++ rs)], E, some name, hs⟩ := by
  intro rs
  induction rs with
  | nil =>
    intro D E name hs racc hf hH hr
    rw [List.map_nil, List.foldlM_nil, List.append_nil]
    rfl
  | cons r rs ih =>
    intro D E name hs racc hf hH hr
    rw [List.map_cons]
    rw [foldlM_cons_ok (parseLine_row hf hH (hr r (by simp)))]
    rw [ih D E name hs (racc ++ [r]) hf hH (fun x hx => hr x (by simp [hx]))]
    rw [List.append_assoc]
    rfl

/-- Folding the parser over all the emitted lines of a canonical table set
appends every table and captured header order, in order. -/
lemma parse_linesOf : ∀ (T : List (List Char × List Row))
    (H : List (List Char × List (List Char)))
    (D : List (List Char × List Row))
    (E : List (List Char × List (List Char)))
    (c : Option (List Char)) (chs : List (List Char)),
    canonicalTH T H = true →
    (∀ nt ∈ T, ∀ q ∈ D, ¬(q.1 = nt.1)) →
    (∀ nt ∈ T, ∀ q ∈ E, ¬(q.1 = nt.1)) →
    ∃ c2 chs2, (linesOf T H).foldlM parseLine (⟨D, E, c, chs⟩ : PSt) =
      .ok ⟨D ++ T, E ++ H, c2, chs2⟩ := by
  intro T
  induction T with
  | nil =>
    intro H D E c chs hc _ _
    cases H with
    | nil =>
      refine ⟨c, chs, ?_⟩
      rw [show linesOf [] [] = [] from rfl, List.foldlM_nil,
        List.append_nil, List.append_nil]
      rfl
    | cons q H2 => simp [canonicalTH] at hc
  | cons nt T ih =>
    intro H D E c chs hc hfD hfE
    cases H with
    | nil =>
      cases nt with
      | mk n1 rows => simp [canonicalTH] at hc
    | cons qh H2 =>
      cases nt with
      | mk n1 rows =>
        cases qh with
        | mk n2 hs =>
          obtain ⟨h12, hname, hH, hrne, hrows, hfT, hfH, hrec⟩ := canonicalTH_cons hc
          subst h12
          have hf1 : ∀ q ∈ D, ¬(q.1 = n1) := hfD (n1, rows) (by simp)
          have hf2 : ∀ q ∈ E, ¬(q.1 = n1) := hfE (n1, rows) (by simp)
          rw [linesOf]
          have hsec : ((('#' :: '#' :: '#' :: n1) :: joinTab hs ::
              (rows.map (renderRow hs) ++ [[]])).foldlM parseLine
                (⟨D, E, c, chs⟩ : PSt)) =
              .ok ⟨D ++ [(n1, rows)], E ++ [(n1, hs)], some n1, hs⟩ := by
            rw [foldlM_cons_ok (parseLine_marker hf1 hname)]
            rw [foldlM_cons_ok (parseLine_header hf2 hH)]
            rw [foldlM_append_ok (parse_rows rows D (E ++ [(n1, hs)]) n1 hs []
              hf1 hH hrows)]
            rw [foldlM_cons_ok (parseLine_blank _), List.foldlM_nil]
            rfl
          rw [foldlM_append_ok hsec]
          obtain ⟨c2, chs2, hfold⟩ := ih H2 (D ++ [(n1, rows)])
            (E ++ [(n1, hs)]) (some n1) hs hrec
            (fun nt hnt q hq => by
              rcases List.mem_append.mp hq with h1 | h2
              · exact hfD nt (by simp [hnt]) q h1
              · rw [List.mem_singleton.mp h2]
                exact fun hcon => hfT nt hnt hcon.symm)
            (fun nt hnt q hq => by
              rcases List.mem_append.mp hq with h1 | h2
              · exact hfE nt (by simp [hnt]) q h1
              · rw [List.mem_singleton.mp h2]
                exact fun hcon => hfT nt hnt hcon.symm)
          refine ⟨c2, chs2, ?_⟩
          rw [hfold]
          rw [List.append_assoc, List.append_assoc]
          rfl

/-- C2: For any set of tables representable in the format (canonical form:
aligned, pairwise-distinct, marker-safe table names; at least two distinct
well-formed header names per table; every table non-empty; every row keyed
exactly by its header order with render-stable, tab/newline-free,
strip-invariant cells whose first and last rendered fields are non-empty
and whose first field is not a marker; all names, headers and rendered
cells confined to the tame ASCII range on which the strip and digit
models coincide with CPython), parsing the text produced by save_as_yls
recovers exactly the original tables and header orders. -/
theorem C2_parse_format_roundtrip (T : List (List Char × List Row))
    (H : List (List Char × List (List Char))) (hc : canonicalTH T H = true) :
    parse_save_data (save_as_yls_text T H) = .ok (T, H) := by
  rw [format_eq_unlines T H hc, parse_save_data,
    splitOn1_unlines (linesOf T H) (linesOf_no_nl T H hc)]
  obtain ⟨c2, chs2, hfold⟩ := parse_linesOf T H [] [] none [] hc
    (by intro nt _ q hq; simp at hq) (by intro nt _ q hq; simp at hq)
  have hfold2 : (linesOf T H).foldlM parseLine PSt.init =
      .ok ⟨[] ++ T, [] ++ H, c2, chs2⟩ := hfold
  rw [foldlM_append_ok hfold2]
  rw [foldlM_cons_ok (parseLine_blank _), List.foldlM_nil]
  rfl

/-- C2 counterexample: round-tripping is not exact for arbitrary values —
a Text cell holding the characters "5" is re-parsed as the Integer 5, so
parse(format(tables)) differs from the original tables. -/
theorem C2_counterexample_text_digits :
    parse_save_data (save_as_yls_text
        [(['T'], [[(['A'], Cell.int 1), (['B'], Cell.text ['5'])]])]
        [(['T'], [['A'], ['B']])]) ≠
      .ok ([(['T'], [[(['A'], Cell.int 1), (['B'], Cell.text ['5'])]])],
        [(['T'], [['A'], ['B']])]) := by decide

theorem C2_parse_format_roundtrip_witness :
    canonicalTH
        [(['S','a','v','e','g','a','m','e'],
          [[(['N','a','m','e'], Cell.text ['B','o','b']),
            (['M','o','n','e','y'], Cell.int 100)]])]
        [(['S','a','v','e','g','a','m','e'],
          [['N','a','m','e'], ['M','o','n','e','y']])] = true ∧
      parse_save_data (save_as_yls_text
          [(['S','a','v','e','g','a','m','e'],
            [[(['N','a','m','e'], Cell.text ['B','o','b']),
              (['M','o','n','e','y'], Cell.int 100)]])]
          [(['S','a','v','e','g','a','m','e'],
            [['N','a','m','e'], ['M','o','n','e','y']])]) =
        .ok ([(['S','a','v','e','g','a','m','e'],
            [[(['N','a','m','e'], Cell.text ['B','o','b']),
              (['M','o','n','e','y'], Cell.int 100)]])],
          [(['S','a','v','e','g','a','m','e'],
            [['N','a','m','e'], ['M','o','n','e','y']])]) :=
  ⟨by decide, C2_parse_format_roundtrip _ _ (by decide)⟩

/-! ## Streaming encode — characterization -/

lemma b64encode_append : ∀ (a b : List Nat), 3 ∣ a.length →
    b64encode (a ++ b) = b64encode a ++ b64encode b := by
  intro a
  induction a using b64encode.induct with
  | case1 b0 b1 b2 rest ih =>
    intro b h3
    simp only [List.length_cons] at h3
    simp only [List.cons_append, b64encode, List.append_eq]
    rw [ih b (by omega)]
  | case2 b0 b1 =>
    intro b h3
    simp only [List.length_cons, List.length_nil] at h3
    omega
  | case3 b0 =>
    intro b h3
    simp only [List.length_cons, List.length_nil] at h3
    omega
  | case4 =>
    intro b _
    rfl

lemma nfBlocks_bytes : ∀ {x : List Nat}, (∀ b ∈ x, b < 256) →
    ∀ b ∈ nfBlocks x, b < 256 := by
  intro x
  induction x using nfBlocks.induct with
  | case1 =>
    intro _ b hb
    rw [nfBlocks.eq_def, if_pos rfl] at hb
    simp at hb
  | case2 x hne hle =>
    intro hx b hb
    rw [nfBlocks.eq_def, if_neg hne, dif_pos hle] at hb
    simp only [List.mem_cons] at hb
    rcases hb with rfl | rfl | rfl | rfl | rfl | hb
    · omega
    · omega
    · omega
    · omega
    · omega
    · exact hx b hb
  | case3 x hne hgt ih =>
    intro hx b hb
    rw [nfBlocks.eq_def, if_neg hne, dif_neg hgt] at hb
    simp only [List.mem_cons, List.mem_append] at hb
    rcases hb with rfl | rfl | rfl | rfl | rfl | hb | hb
    · omega
    · omega
    · omega
    · omega
    · omega
    · exact hx b (List.take_subset _ _ hb)
    · exact ih (fun b2 hb2 => hx b2 (List.drop_subset _ _ hb2)) b hb

/-- Non-final stored blocks pass their data through and hand the rest of
the deflate stream to the continuation. -/
lemma parseBlocks_nf : ∀ (x : List Nat), ∀ (r : List Nat),
    parseBlocks (nfBlocks x ++ r) =
      (parseBlocks r).map fun p => (x ++ p.1, p.2) := by
  intro x
  induction x using nfBlocks.induct with
  | case1 =>
    intro r
    rw [nfBlocks.eq_def, if_pos rfl, List.nil_append]
    cases parseBlocks r with
    | none => rfl
    | some p => rfl
  | case2 x hne hle =>
    intro r
    rw [nfBlocks.eq_def, if_neg hne, dif_pos hle]
    simp only [List.cons_append]
    rw [parseBlocks_cons]
    rw [if_pos (by constructor <;> [omega; (simp only [List.length_append]; omega)])]
    rw [if_neg (by omega), if_pos rfl]
    have e : x.length % 256 + 256 * (x.length / 256) = x.length := by omega
    rw [e, List.take_left, List.drop_left]
  | case3 x hne hgt ih =>
    intro r
    rw [nfBlocks.eq_def, if_neg hne, dif_neg hgt]
    simp only [List.cons_append, List.append_assoc]
    rw [parseBlocks_cons]
    have hlt : (x.take 65535).length = 65535 := by
      rw [List.length_take]
      omega
    rw [if_pos (by constructor <;> [omega;
      (simp only [List.length_append, hlt]; omega)])]
    rw [if_neg (by omega), if_pos rfl]
    have e : 255 + 256 * 255 = 65535 := by norm_num
    have e1 : ∀ A R : List Nat, A.length = 65535 → (A ++ R).take 65535 = A := by
      intro A R hA
      rw [← hA]
      exact List.take_left A R
    have e2 : ∀ A R : List Nat, A.length = 65535 → (A ++ R).drop 65535 = R := by
      intro A R hA
      rw [← hA]
      exact List.drop_left A R
    rw [e, e1 (x.take 65535) (nfBlocks (x.drop 65535) ++ r) hlt,
      e2 (x.take 65535) (nfBlocks (x.drop 65535) ++ r) hlt, ih]
    cases parseBlocks r with
    | none => rfl
    | some p =>
      show some ((x.take 65535 ++ (x.drop 65535 ++ p.1), p.2) : List Nat × List Nat) =
        some (x ++ p.1, p.2)
      rw [← List.append_assoc, List.take_append_drop]

/-- The compressed bytes the loop of stream_gzip_base64 obtains from the
incremental compressor: per read of `c` bytes the compressor output, then
the flush. -/
def compOut (c : Nat) (remaining : List Nat) (st : CompSt) : List Nat :=
  if h : c = 0 ∨ remaining.isEmpty then st.flushC
  else (st.compress (remaining.take c)).2 ++
    compOut c (remaining.drop c) (st.compress (remaining.take c)).1
termination_by remaining.length
decreasing_by
  simp only [not_or, List.isEmpty_iff] at h
  have hc : 0 < c := Nat.pos_of_ne_zero h.1
  have hx : 0 < remaining.length := List.length_pos.mpr h.2
  simpa using Nat.sub_lt hx hc

/-- The text stream_gzip_base64 writes is the base64 encoding of the
compressor's byte output: the 3-aligned chunking only splits the encoding,
it never changes it. -/
lemma streamEncodeLoop_b64 : ∀ (c : Nat) (rem : List Nat) (st : CompSt),
    ∀ (buf S : List Nat), 3 ∣ S.length →
    streamEncodeLoop c rem st buf (b64encode S) =
      b64encode (S ++ (buf ++ compOut c rem st)) := by
  intro c rem st
  refine compOut.induct c
    (fun rem st => ∀ buf S, 3 ∣ S.length →
      streamEncodeLoop c rem st buf (b64encode S) =
        b64encode (S ++ (buf ++ compOut c rem st))) ?_ ?_ rem st
  · intro rem st h buf S hS
    rw [streamEncodeLoop.eq_def, dif_pos h, compOut.eq_def, dif_pos h]
    by_cases he : (buf ++ st.flushC).isEmpty = true
    · rw [if_pos he]
      rw [List.isEmpty_iff.mp he]
      rw [List.append_nil]
    · rw [if_neg he, ← b64encode_append S (buf ++ st.flushC) hS]
  · intro rem st h ih buf S hS
    rw [streamEncodeLoop.eq_def, dif_neg h, compOut.eq_def, dif_neg h]
    rcases hsc : st.compress (rem.take c) with ⟨st1, compressed⟩
    rw [hsc] at ih
    dsimp only at ih ⊢
    by_cases hce : compressed.isEmpty = true
    · rw [if_pos hce]
      rw [ih buf S hS, List.isEmpty_iff.mp hce, List.nil_append]
    · rw [if_neg hce]
      by_cases hn : (buf ++ compressed).length / 3 * 3 = 0
      · rw [if_pos hn]
        rw [ih (buf ++ compressed) S hS]
        rw [List.append_assoc]
      · rw [if_neg hn]
        rw [← b64encode_append S ((buf ++ compressed).take
          ((buf ++ compressed).length / 3 * 3)) hS]
        rw [ih ((buf ++ compressed).drop ((buf ++ compressed).length / 3 * 3))
          (S ++ (buf ++ compressed).take ((buf ++ compressed).length / 3 * 3))
          (by
            rw [List.length_append, List.length_take]
            rcases hS with ⟨k, hk⟩
            exact ⟨k + min ((buf ++ compressed).length / 3 * 3)
              (buf ++ compressed).length / 3, by omega⟩)]
        congr 1
        rw [List.append_assoc,
          ← List.append_assoc ((buf ++ compressed).take _) ((buf ++ compressed).drop _),
          List.take_append_drop, ← List.append_assoc, List.append_assoc,
          List.append_assoc]

/-- Shape of the full compressor output along a streaming run: an optional
header, a run of non-final stored blocks carrying exactly the remaining
input, the final empty block, and the trailer for everything fed. -/
lemma compOut_shape : ∀ (c : Nat) (rem : List Nat) (st : CompSt), 1 ≤ c →
    (∀ b ∈ rem, b < 256) →
    ∃ mid, compOut c rem st =
        (if st.started then [] else gzHeaderStream) ++
          (mid ++ (finalBlock ++ gzTrailer (st.fed ++ rem))) ∧
      (∀ r, parseBlocks (mid ++ r) =
        (parseBlocks r).map fun p => (rem ++ p.1, p.2)) ∧
      (∀ b ∈ mid, b < 256) := by
  intro c rem st
  refine compOut.induct c
    (fun rem st => 1 ≤ c → (∀ b ∈ rem, b < 256) →
      ∃ mid, compOut c rem st =
          (if st.started then [] else gzHeaderStream) ++
            (mid ++ (finalBlock ++ gzTrailer (st.fed ++ rem))) ∧
        (∀ r, parseBlocks (mid ++ r) =
          (parseBlocks r).map fun p => (rem ++ p.1, p.2)) ∧
        (∀ b ∈ mid, b < 256)) ?_ ?_ rem st
  · intro rem st h hc hb
    have hrem : rem = [] := by
      rcases h with h0 | he
      · omega
      · exact List.isEmpty_iff.mp he
    subst hrem
    refine ⟨[], ?_, ?_, ?_⟩
    · rw [compOut.eq_def, dif_pos h, CompSt.flushC]
      rw [List.nil_append, List.append_nil, List.append_assoc]
    · intro r
      rw [List.nil_append]
      cases parseBlocks r with
      | none => rfl
      | some p => rfl
    · intro b hb2
      simp at hb2
  · intro rem st h ih hc hb
    have hne : ¬((rem.take c).isEmpty = true) := by
      simp only [not_or, List.isEmpty_iff] at h
      rw [List.isEmpty_iff, List.take_eq_nil_iff]
      rintro (h0 | h0)
      · omega
      · exact h.2 h0
    have hcomp : st.compress (rem.take c) =
        (⟨true, st.fed ++ rem.take c⟩,
          (if st.started then [] else gzHeaderStream) ++ nfBlocks (rem.take c)) := by
      rw [CompSt.compress, if_neg hne]
    rw [hcomp] at ih
    dsimp only at ih
    obtain ⟨mid', hsh, hpar, hbytes⟩ :=
      ih hc (fun b hb2 => hb b (List.drop_subset _ _ hb2))
    refine ⟨nfBlocks (rem.take c) ++ mid', ?_, ?_, ?_⟩
    · rw [compOut.eq_def, dif_neg h, hcomp]
      dsimp only
      rw [hsh, if_pos rfl, List.nil_append]
      simp only [List.append_assoc, List.take_append_drop]
    · intro r
      rw [List.append_assoc, parseBlocks_nf, hpar r]
      cases parseBlocks r with
      | none => rfl
      | some p =>
        show some ((rem.take c ++ (rem.drop c ++ p.1), p.2) : List Nat × List Nat) =
          some (rem ++ p.1, p.2)
        rw [← List.append_assoc, List.take_append_drop]
    · intro b hb2
      rcases List.mem_append.mp hb2 with h1 | h2
      · exact nfBlocks_bytes (fun b2 hb3 => hb b2 (List.take_subset _ _ hb3)) b h1
      · exact hbytes b h2

/-- Whole-buffer decode of the streaming encoder's output returns the
original input, for every chunk size of at least one. -/
lemma stream_encode_decodes (x : List Nat) (c : Nat) (hc : 1 ≤ c)
    (hx : ∀ b ∈ x, b < 256) :
    decode_base64_gzip (stream_gzip_base64 x c) = .ok x := by
  have hloop : stream_gzip_base64 x c = b64encode (compOut c x ⟨false, []⟩) := by
    rw [stream_gzip_base64]
    show streamEncodeLoop c x ⟨false, []⟩ [] (b64encode []) =
      b64encode (compOut c x ⟨false, []⟩)
    rw [streamEncodeLoop_b64 c x ⟨false, []⟩ [] [] (by simp)]
    rfl
  obtain ⟨mid, hsh, hpar, hbytes⟩ := compOut_shape c x ⟨false, []⟩ hc hx
  dsimp only at hsh
  rw [if_neg Bool.false_ne_true, List.nil_append] at hsh
  have hcb : ∀ b ∈ gzHeaderStream ++ (mid ++ (finalBlock ++ gzTrailer x)),
      b < 256 := by
    intro b hb
    rcases List.mem_append.mp hb with hb | hb
    · rw [gzHeaderStream] at hb
      simp only [List.mem_cons, List.not_mem_nil, or_false] at hb
      omega
    rcases List.mem_append.mp hb with hb | hb
    · exact hbytes b hb
    rcases List.mem_append.mp hb with hb | hb
    · rw [finalBlock] at hb
      simp only [List.mem_cons, List.not_mem_nil, or_false] at hb
      omega
    · rw [gzTrailer] at hb
      rcases List.mem_append.mp hb with hb | hb
      · exact le32_bytes _ b hb
      · exact le32_bytes _ b hb
  rw [hloop, hsh]
  rw [decode_base64_gzip, pyStrip_id (b64encode_no_ws _), pyB64Decode_encode _ hcb]
  show (gzipDecompress (gzHeaderStream ++ (mid ++ (finalBlock ++ gzTrailer x)))).mapError
    TseErr.gzip = .ok x
  rw [gzipDecompress]
  rw [if_pos ⟨by rw [gzHeaderStream]; rfl,
    by rw [gzHeaderStream]; simp only [List.cons_append, List.length_cons]; omega⟩]
  have hdrop : (gzHeaderStream ++ (mid ++ (finalBlock ++ gzTrailer x))).drop 10 =
      mid ++ (finalBlock ++ gzTrailer x) := by
    rw [gzHeaderStream]
    rfl
  rw [hdrop, hpar (finalBlock ++ gzTrailer x)]
  have hfin : parseBlocks (finalBlock ++ gzTrailer x) = some ([], gzTrailer x) := by
    rw [finalBlock]
    simp only [List.cons_append, List.nil_append]
    rw [parseBlocks_cons]
    rw [if_pos ⟨by omega, by omega⟩]
    rw [if_pos rfl]
    simp
  rw [hfin, gzTrailer]
  simp [le32]
  rfl

/-- C4 counterexample: with chunk size 1 on the empty input the streaming
encoder's text differs from the whole-buffer encoder's text — the zlib
gzip wrapper writes XFL 0 / OS 3 header bytes and an empty-final-block
deflate stream, while GzipFile writes XFL 2 / OS 255 and a final stored
block, so the base64 texts differ byte-for-byte. -/
theorem C4_counterexample_stream_not_identical :
    stream_gzip_base64 [] 1 ≠ encode_base64_gzip [] := by
  rw [stream_gzip_base64, streamEncodeLoop.eq_def]
  rw [dif_pos (by decide : (1 = 0 ∨ ([] : List Nat).isEmpty = true))]
  rw [encode_base64_gzip, gzipCompress, storedBlocks.eq_def]
  rw [dif_pos (by decide : ([] : List Nat).length ≤ 65535)]
  decide

/-- C4 (amended): the streaming encoder's output is not byte-identical to
the whole-buffer encoder's, but it is equivalent as an encoding: for every
input and every chunk size of at least one, whole-buffer decode maps both
texts to the original input. -/
theorem C4_stream_encode_equiv (x : List Nat) (c : Nat) (hc : 1 ≤ c)
    (hx : ∀ b ∈ x, b < 256) :
    decode_base64_gzip (stream_gzip_base64 x c) = .ok x ∧
      decode_base64_gzip (encode_base64_gzip x) = .ok x :=
  ⟨stream_encode_decodes x c hc hx, by
    rw [encode_base64_gzip]
    exact decode_encode_core x hx⟩

theorem C4_stream_encode_equiv_witness :
    1 ≤ 2 ∧ (∀ b ∈ [104, 105], b < 256) ∧
      (decode_base64_gzip (stream_gzip_base64 [104, 105] 2) = .ok [104, 105] ∧
        decode_base64_gzip (encode_base64_gzip [104, 105]) = .ok [104, 105]) :=
  ⟨by decide, by decide, C4_stream_encode_equiv [104, 105] 2 (by decide) (by decide)⟩

/-! ## Streaming decode — base64 quad alignment -/

lemma b64encode_length_dvd : ∀ u : List Nat, 4 ∣ (b64encode u).length := by
  intro u
  induction u using b64encode.induct with
  | case1 b0 b1 b2 rest ih =>
    rw [b64encode]
    simp only [List.length_cons]
    rcases ih with ⟨k, hk⟩
    exact ⟨k + 1, by omega⟩
  | case2 b0 b1 => exact ⟨1, rfl⟩
  | case3 b0 => exact ⟨1, rfl⟩
  | case4 => exact ⟨0, rfl⟩

lemma b64encode_eq_nil : ∀ {u : List Nat}, b64encode u = [] → u = [] := by
  intro u
  match u with
  | [] => intro _; rfl
  | [b0] => intro h; simp [b64encode] at h
  | [b0, b1] => intro h; simp [b64encode] at h
  | b0 :: b1 :: b2 :: rest => intro h; simp [b64encode] at h

lemma b64encode_take4 : ∀ W : List Nat,
    (b64encode W).take 4 = b64encode (W.take 3) := by
  intro W
  match W with
  | [] => rfl
  | [b0] => rfl
  | [b0, b1] => rfl
  | b0 :: b1 :: b2 :: rest => simp [b64encode]

lemma b64encode_drop4 : ∀ W : List Nat,
    (b64encode W).drop 4 = b64encode (W.drop 3) := by
  intro W
  match W with
  | [] => rfl
  | [b0] => rfl
  | [b0, b1] => rfl
  | b0 :: b1 :: b2 :: rest => simp [b64encode]

lemma b64encode_take_mul : ∀ (k : Nat) (W : List Nat),
    (b64encode W).take (4 * k) = b64encode (W.take (3 * k)) := by
  intro k
  induction k with
  | zero => intro W; rfl
  | succ k ih =>
    intro W
    have h4 : 4 * (k + 1) = 4 + 4 * k := by ring
    have h3 : 3 * (k + 1) = 3 + 3 * k := by ring
    rw [h4, h3, List.take_add, List.take_add, b64encode_take4, b64encode_drop4,
      ih (W.drop 3)]
    by_cases hlen : 3 ≤ W.length
    · rw [← b64encode_append _ _ (by rw [List.length_take]; omega)]
    · have hd : W.drop 3 = [] := List.drop_eq_nil_iff.mpr (by omega)
      have ht : W.take 3 = W := List.take_of_length_le (by omega)
      rw [hd, ht]
      simp
      rfl

lemma b64encode_drop_mul : ∀ (k : Nat) (W : List Nat),
    (b64encode W).drop (4 * k) = b64encode (W.drop (3 * k)) := by
  intro k
  induction k with
  | zero => intro W; rfl
  | succ k ih =>
    intro W
    have h4 : 4 * (k + 1) = 4 + 4 * k := by ring
    have h3 : 3 * (k + 1) = 3 + 3 * k := by ring
    rw [h4, h3, ← List.drop_drop, ← List.drop_drop, b64encode_drop4, ih (W.drop 3)]

/-! ## Streaming decode — incremental inflater output -/

lemma take_append_le (A B : List Nat) (n : Nat) (h : n ≤ A.length) :
    (A ++ B).take n = A.take n := by
  have h0 : n - A.length = 0 := by omega
  rw [List.take_append_eq_append_take, h0, List.take_zero, List.append_nil]

lemma drop_append_le (A B : List Nat) (n : Nat) (h : n ≤ A.length) :
    (A ++ B).drop n = A.drop n ++ B := by
  rw [List.drop_append_eq_append_drop, Nat.sub_eq_zero_of_le h, List.drop_zero]

lemma availBlocks_cons (f l0 l1 n0 n1 : Nat) (rest : List Nat) :
    availBlocks (f :: l0 :: l1 :: n0 :: n1 :: rest) =
      (if n0 + 256 * n1 = 65535 - (l0 + 256 * l1) ∧ l0 + 256 * l1 ≤ rest.length then
        if f = 1 then rest.take (l0 + 256 * l1)
        else if f = 0 then
          rest.take (l0 + 256 * l1) ++ availBlocks (rest.drop (l0 + 256 * l1))
        else []
      else []) := by
  rw [availBlocks.eq_def]

lemma availBlocks_nil : availBlocks [] = [] := by
  rw [availBlocks.eq_def]

/-- Feeding more bytes only extends the inflater's available output: block
boundaries are determined by the already-received prefix. -/
lemma availBlocks_mono : ∀ (bs t : List Nat),
    availBlocks bs <+: availBlocks (bs ++ t) := by
  have main : ∀ (N : Nat) (bs : List Nat), bs.length ≤ N → ∀ t,
      availBlocks bs <+: availBlocks (bs ++ t) := by
    intro N
    induction N with
    | zero =>
      intro bs hb t
      have hnil : bs = [] := List.eq_nil_of_length_eq_zero (by omega)
      subst hnil
      rw [availBlocks_nil]
      exact List.nil_prefix
    | succ N ihN =>
      intro bs hb t
      match bs with
      | [] =>
        rw [availBlocks_nil]
        exact List.nil_prefix
      | [a] =>
        rw [show availBlocks [a] = [] from by rw [availBlocks.eq_def]]
        exact List.nil_prefix
      | [a, b] =>
        rw [show availBlocks [a, b] = [] from by rw [availBlocks.eq_def]]
        exact List.nil_prefix
      | [a, b, d] =>
        rw [show availBlocks [a, b, d] = [] from by rw [availBlocks.eq_def]]
        exact List.nil_prefix
      | [a, b, d, e] =>
        rw [show availBlocks [a, b, d, e] = [] from by rw [availBlocks.eq_def]]
        exact List.nil_prefix
      | f :: l0 :: l1 :: n0 :: n1 :: rest =>
        simp only [List.cons_append]
        rw [availBlocks_cons, availBlocks_cons]
        by_cases hcond : n0 + 256 * n1 = 65535 - (l0 + 256 * l1) ∧
            l0 + 256 * l1 ≤ rest.length
        · have hcond2 : n0 + 256 * n1 = 65535 - (l0 + 256 * l1) ∧
              l0 + 256 * l1 ≤ (rest ++ t).length :=
            ⟨hcond.1, by rw [List.length_append]; omega⟩
          rw [if_pos hcond, if_pos hcond2]
          by_cases hf1 : f = 1
          · rw [if_pos hf1, if_pos hf1, take_append_le rest t _ hcond.2]
          · rw [if_neg hf1, if_neg hf1]
            by_cases hf0 : f = 0
            · rw [if_pos hf0, if_pos hf0, take_append_le rest t _ hcond.2,
                drop_append_le rest t _ hcond.2]
              have hlen2 : (rest.drop (l0 + 256 * l1)).length ≤ N := by
                simp only [List.length_cons] at hb
                rw [List.length_drop]
                omega
              obtain ⟨tt, htt⟩ := ihN (rest.drop (l0 + 256 * l1)) hlen2 t
              exact ⟨tt, by rw [List.append_assoc, htt]⟩
            · rw [if_neg hf0, if_neg hf0]
        · rw [if_neg hcond]
          exact List.nil_prefix
  intro bs t
  exact main bs.length bs (le_refl _) t

lemma availOut_mono (u t : List Nat) : availOut u <+: availOut (u ++ t) := by
  rw [availOut, availOut]
  by_cases h10 : u.length < 10
  · rw [if_pos h10]
    exact List.nil_prefix
  · have h10b : ¬((u ++ t).length < 10) := by rw [List.length_append]; omega
    rw [if_neg h10, if_neg h10b, take_append_le u t 4 (by omega)]
    by_cases hm : u.take 4 = [31, 139, 8, 0]
    · rw [if_pos hm, if_pos hm, drop_append_le u t 10 (by omega)]
      exact availBlocks_mono (u.drop 10) t
    · rw [if_neg hm, if_neg hm]

/-- The stored blocks of a whole member make their full payload available,
whatever follows them. -/
lemma availBlocks_stored (x : List Nat) : ∀ t : List Nat,
    availBlocks (storedBlocks x ++ t) = x := by
  induction x using storedBlocks.induct with
  | case1 x h =>
    intro t
    rw [storedBlocks.eq_def, dif_pos h]
    simp only [List.cons_append]
    rw [availBlocks_cons]
    rw [if_pos (by constructor <;> [omega; (simp only [List.length_append]; omega)])]
    rw [if_pos rfl]
    have e : x.length % 256 + 256 * (x.length / 256) = x.length := by omega
    rw [e, List.take_left]
  | case2 x h ih =>
    intro t
    rw [storedBlocks.eq_def, dif_neg h]
    simp only [List.cons_append, List.append_assoc]
    rw [availBlocks_cons]
    have hlt : (x.take 65535).length = 65535 := by
      rw [List.length_take]
      omega
    rw [if_pos (by constructor <;> [omega;
      (simp only [List.length_append, hlt]; omega)])]
    rw [if_neg (by omega), if_pos rfl]
    have e : 255 + 256 * 255 = 65535 := by norm_num
    have e1 : ∀ A R : List Nat, A.length = 65535 → (A ++ R).take 65535 = A := by
      intro A R hA
      rw [← hA]
      exact List.take_left A R
    have e2 : ∀ A R : List Nat, A.length = 65535 → (A ++ R).drop 65535 = R := by
      intro A R hA
      rw [← hA]
      exact List.drop_left A R
    rw [e, e1 (x.take 65535) (storedBlocks (x.drop 65535) ++ t) hlt,
      e2 (x.take 65535) (storedBlocks (x.drop 65535) ++ t) hlt, ih]
    exact List.take_append_drop 65535 x

/-- A fully received compressed member makes exactly the payload available. -/
lemma availOut_compress (x : List Nat) : ∀ t : List Nat,
    availOut (gzipCompress x ++ t) = x := by
  intro t
  rw [availOut, gzipCompress]
  rw [if_neg (by
    simp only [gzHeaderWhole, List.cons_append, List.length_cons]
    omega)]
  rw [if_pos (by rw [gzHeaderWhole]; rfl)]
  have hdrop : (((gzHeaderWhole ++ storedBlocks x ++ gzTrailer x)) ++ t).drop 10 =
      storedBlocks x ++ (gzTrailer x ++ t) := by
    rw [gzHeaderWhole]
    simp only [List.cons_append, List.append_assoc]
    rfl
  rw [hdrop, availBlocks_stored]

lemma prefix_drain {u v : List Nat} (h : u <+: v) : u ++ v.drop u.length = v := by
  obtain ⟨tt, rfl⟩ := h
  rw [List.drop_left]

/-- Feeding an inflater that has drained everything available keeps it
drained: its emitted output is exactly the available output of all bytes
received so far. -/
lemma feed_avail (received bs : List Nat) :
    DecompSt.feed ⟨received, availOut received⟩ bs =
      (⟨received ++ bs, availOut (received ++ bs)⟩,
        (availOut (received ++ bs)).drop (availOut received).length) := by
  rw [DecompSt.feed]
  dsimp only
  rw [prefix_drain (availOut_mono received bs)]

/-- End of input with the full text consumed: the loop flushes and returns
everything the member made available. -/
lemma streamDecodeLoop_done (W : List Nat) (c k : Nat) (pending : List Nat)
    (hp4 : pending.length < 4)
    (henc : pending = b64encode (W.drop (3 * k))) :
    streamDecodeLoop c [] pending ⟨W.take (3 * k), availOut (W.take (3 * k))⟩
      (availOut (W.take (3 * k))) = .ok (availOut W) := by
  subst henc
  have hlen0 : (b64encode (W.drop (3 * k))).length = 0 := by
    rcases b64encode_length_dvd (W.drop (3 * k)) with ⟨m, hm⟩
    omega
  have hpnil : b64encode (W.drop (3 * k)) = [] :=
    List.eq_nil_of_length_eq_zero hlen0
  have hdnil : W.drop (3 * k) = [] := b64encode_eq_nil hpnil
  have htake : W.take (3 * k) = W :=
    List.take_of_length_le (List.drop_eq_nil_iff.mp hdnil)
  rw [hpnil, streamDecodeLoop.eq_def, dif_pos (Or.inr List.isEmpty_nil)]
  rw [if_pos List.isEmpty_nil, DecompSt.flush]
  dsimp only
  rw [List.drop_length, List.append_nil, htake]

/-- Loop invariant of stream_decode_b64_gzip over the encoding of a byte
sequence `W`: after `k` decoded quads the inflater has received the first
`3k` bytes of `W` and everything written so far is its available output;
the loop ends by returning the available output of all of `W`. -/
lemma streamDecodeLoop_inv (W : List Nat) (hW : ∀ b ∈ W, b < 256) (c : Nat)
    (hc : 1 ≤ c) :
    ∀ (N : Nat) (remaining : List Nat), remaining.length ≤ N →
    ∀ (k : Nat) (pending : List Nat), pending.length < 4 →
      pending ++ remaining = b64encode (W.drop (3 * k)) →
      streamDecodeLoop c remaining pending
        ⟨W.take (3 * k), availOut (W.take (3 * k))⟩
        (availOut (W.take (3 * k))) = .ok (availOut W) := by
  intro N
  induction N with
  | zero =>
    intro remaining hlen k pending hp4 henc
    have hrnil : remaining = [] := List.eq_nil_of_length_eq_zero (by omega)
    subst hrnil
    exact streamDecodeLoop_done W c k pending hp4 (by rw [← henc, List.append_nil])
  | succ N ihN =>
    intro remaining hlen k pending hp4 henc
    by_cases hre : remaining.isEmpty = true
    · have hrnil : remaining = [] := List.isEmpty_iff.mp hre
      subst hrnil
      exact streamDecodeLoop_done W c k pending hp4 (by rw [← henc, List.append_nil])
    · have hrpos : 0 < remaining.length :=
        List.length_pos.mpr (fun hnil => hre (by rw [hnil]; rfl))
      rw [streamDecodeLoop.eq_def, dif_neg (by
        rintro (h0 | h0)
        · omega
        · exact hre h0)]
      dsimp only
      have hP1len : (pending ++ remaining.take c).length =
          pending.length + min c remaining.length := by
        rw [List.length_append, List.length_take]
      have henc1 : (pending ++ remaining.take c) ++ remaining.drop c =
          b64encode (W.drop (3 * k)) := by
        rw [List.append_assoc, List.take_append_drop, henc]
      by_cases hn0 : (pending ++ remaining.take c).length / 4 * 4 = 0
      · rw [if_pos hn0]
        exact ihN (remaining.drop c) (by rw [List.length_drop]; omega) k
          (pending ++ remaining.take c) (by omega) henc1
      · rw [if_neg hn0]
        have hnle : (pending ++ remaining.take c).length / 4 * 4 ≤
            (pending ++ remaining.take c).length := by omega
        have htk : (pending ++ remaining.take c).take
            ((pending ++ remaining.take c).length / 4 * 4) =
            b64encode ((W.drop (3 * k)).take
              (3 * ((pending ++ remaining.take c).length / 4))) := by
          rw [← take_append_le (pending ++ remaining.take c) (remaining.drop c)
            _ hnle, henc1]
          have h44 : (pending ++ remaining.take c).length / 4 * 4 =
              4 * ((pending ++ remaining.take c).length / 4) := by omega
          rw [h44, b64encode_take_mul]
        have hbytes : ∀ b ∈ (W.drop (3 * k)).take
            (3 * ((pending ++ remaining.take c).length / 4)), b < 256 :=
          fun b hb => hW b (List.drop_subset _ _ (List.take_subset _ _ hb))
        rw [htk, pyB64Decode_encode _ hbytes]
        dsimp only
        rw [feed_avail]
        dsimp only
        have e3 : W.take (3 * k) ++ (W.drop (3 * k)).take
            (3 * ((pending ++ remaining.take c).length / 4)) =
            W.take (3 * (k + (pending ++ remaining.take c).length / 4)) := by
          rw [← List.take_add]
          congr 1
          omega
        rw [e3, prefix_drain (by rw [← e3]; exact availOut_mono _ _)]
        have henc2 : (pending ++ remaining.take c).drop
            ((pending ++ remaining.take c).length / 4 * 4) ++ remaining.drop c =
            b64encode (W.drop
              (3 * (k + (pending ++ remaining.take c).length / 4))) := by
          rw [← drop_append_le (pending ++ remaining.take c) (remaining.drop c)
            _ hnle, henc1]
          have h44 : (pending ++ remaining.take c).length / 4 * 4 =
              4 * ((pending ++ remaining.take c).length / 4) := by omega
          rw [h44, b64encode_drop_mul, List.drop_drop]
          congr 1
          ring_nf
        exact ihN (remaining.drop c) (by rw [List.length_drop]; omega)
          (k + (pending ++ remaining.take c).length / 4)
          ((pending ++ remaining.take c).drop
            ((pending ++ remaining.take c).length / 4 * 4))
          (by rw [List.length_drop]; omega) henc2

/-- C3: For every byte sequence x and every chunk size c ≥ 1, streaming
decode driven with reads of size c over the base64 text produced by encode
writes exactly the byte sequence that whole-buffer decode returns for the
full text — both produce x. -/
theorem C3_stream_decode_equiv (x : List Nat) (c : Nat) (hc : 1 ≤ c)
    (hx : ∀ b ∈ x, b < 256) :
    stream_decode_b64_gzip (b64encode (gzipCompress x)) c = .ok x ∧
      decode_base64_gzip (b64encode (gzipCompress x)) = .ok x := by
  constructor
  · rw [stream_decode_b64_gzip]
    have havail : availOut (gzipCompress x) = x := by
      have h := availOut_compress x []
      rw [List.append_nil] at h
      exact h
    have h0 := streamDecodeLoop_inv (gzipCompress x) (gzipCompress_bytes hx) c hc
      (b64encode (gzipCompress x)).length (b64encode (gzipCompress x)) (le_refl _)
      0 [] (by simp) (by simp)
    rw [havail] at h0
    exact h0
  · exact decode_encode_core x hx

theorem C3_stream_decode_equiv_witness :
    1 ≤ 5 ∧ (∀ b ∈ [65], b < 256) ∧
      (stream_decode_b64_gzip (b64encode (gzipCompress [65])) 5 = .ok [65] ∧
        decode_base64_gzip (b64encode (gzipCompress [65])) = .ok [65]) :=
  ⟨by decide, by decide, C3_stream_decode_equiv [65] 5 (by decide) (by decide)⟩

end YLSE
